import Mathlib

/-!
Verification development for the `tunnel` HTTPS client.

The definitions below are a shallow embedding of the Rust sources:
byte strings become `List Nat` (one `Nat` per byte), the incremental
HTTP/1.x response decoder (`src/http1/response.rs`) and the response
header recognizers (`src/http1/headers.rs`) become pure functions, and
the TLS handshake loop (`src/stream.rs`) becomes a fuel-indexed state
machine over an abstract engine/transport model.  Fallible operations
return sum types; Rust slice-index panics and `todo!()` arms are made
explicit as a `panicked` outcome.
-/

set_option maxRecDepth 4000

namespace Tunnel

/-- Byte list of an ASCII string literal, used to write concrete HTTP inputs. -/
def bytes (s : String) : List Nat := s.toList.map Char.toNat

/-- Embedding of `memchr::memchr(c, buf)`: index of the first occurrence of byte `c`. -/
def memchr (c : Nat) : List Nat → Option Nat
  | [] => none
  | b :: bs => if b = c then some 0 else (memchr c bs).map (· + 1)

/-- First index at which the two-byte pattern `[a, b]` occurs, the scan underlying
Rust's `str::split(": ")` as used by `Header::serialize`. -/
def findSub2 (a b : Nat) : List Nat → Option Nat
  | x :: y :: rest => if x = a ∧ y = b then some 0 else (findSub2 a b (y :: rest)).map (· + 1)
  | _ => none

/-- Value of an ASCII decimal digit byte. -/
def decDigit (b : Nat) : Option Nat :=
  if 48 ≤ b ∧ b ≤ 57 then some (b - 48) else none

/-- Value of an ASCII hexadecimal digit byte (either case). -/
def hexDigit (b : Nat) : Option Nat :=
  if 48 ≤ b ∧ b ≤ 57 then some (b - 48)
  else if 97 ≤ b ∧ b ≤ 102 then some (b - 97 + 10)
  else if 65 ≤ b ∧ b ≤ 70 then some (b - 65 + 10)
  else none

/-- Accumulated value of a nonempty all-digit byte string, `none` otherwise. -/
def digitsVal (dv : Nat → Option Nat) (radix : Nat) : List Nat → Option Nat
  | [] => none
  | l =>
    l.foldl
      (fun acc b =>
        match acc, dv b with
        | some v, some dig => some (v * radix + dig)
        | _, _ => none)
      (some 0)

/-- Embedding of Rust's unsigned integer parsing (`from_str` / `from_str_radix`):
one optional leading `+`, then at least one digit; values reaching `bound`
overflow and fail.  Any byte outside the digit set (including all non-ASCII
bytes, so a preceding `str::from_utf8` failure is absorbed) yields `none`. -/
def radixParse (dv : Nat → Option Nat) (radix bound : Nat) (l : List Nat) : Option Nat :=
  let core := match l with
    | 43 :: rest => rest
    | _ => l
  match digitsVal dv radix core with
  | some v => if v < bound then some v else none
  | none => none

/-- Embedding of `val.parse::<usize>()` on a 64-bit target. -/
def usizeParse : List Nat → Option Nat := radixParse decDigit 10 (2 ^ 64)

/-- Embedding of `str_to_usize` in `response.rs`: UTF-8 decode then
`usize::from_str_radix(_, 16)`; both failure modes collapse to `none`. -/
def strToUsize : List Nat → Option Nat := radixParse hexDigit 16 (2 ^ 64)

/-- Embedding of `parse::<u16>()` applied to the status-code window. -/
def u16Parse : List Nat → Option Nat := radixParse decDigit 10 (2 ^ 16)

/-- Whether a byte is a UTF-8 continuation byte. -/
def utf8Cont (b : Nat) : Bool := 128 ≤ b ∧ b ≤ 191

/-- Embedding of `str::from_utf8(l).is_ok()`: the standard UTF-8 validation
table, rejecting overlong forms, surrogates and values above U+10FFFF.
The recursion is fuel-indexed (every step consumes at least one byte, so
`l.length + 1` steps always finish, and the fuel-0 filler coincides with the
empty-input exit). -/
def utf8Go : Nat → List Nat → Bool
  | 0, _ => true
  | _ + 1, [] => true
  | fuel + 1, b :: rest =>
    if b ≤ 127 then utf8Go fuel rest
    else if b ≤ 193 then false
    else if b ≤ 223 then
      match rest with
      | c :: r => utf8Cont c && utf8Go fuel r
      | [] => false
    else if b = 224 then
      match rest with
      | c :: d :: r => (decide (160 ≤ c ∧ c ≤ 191)) && utf8Cont d && utf8Go fuel r
      | _ => false
    else if b ≤ 236 then
      match rest with
      | c :: d :: r => utf8Cont c && utf8Cont d && utf8Go fuel r
      | _ => false
    else if b = 237 then
      match rest with
      | c :: d :: r => (decide (128 ≤ c ∧ c ≤ 159)) && utf8Cont d && utf8Go fuel r
      | _ => false
    else if b ≤ 239 then
      match rest with
      | c :: d :: r => utf8Cont c && utf8Cont d && utf8Go fuel r
      | _ => false
    else if b = 240 then
      match rest with
      | c :: d :: e :: r => (decide (144 ≤ c ∧ c ≤ 191)) && utf8Cont d && utf8Cont e && utf8Go fuel r
      | _ => false
    else if b ≤ 243 then
      match rest with
      | c :: d :: e :: r => utf8Cont c && utf8Cont d && utf8Cont e && utf8Go fuel r
      | _ => false
    else if b = 244 then
      match rest with
      | c :: d :: e :: r => (decide (128 ≤ c ∧ c ≤ 143)) && utf8Cont d && utf8Cont e && utf8Go fuel r
      | _ => false
    else false

/-- UTF-8 validity of a byte string, entered with always-sufficient fuel. -/
def utf8Valid (l : List Nat) : Bool := utf8Go (l.length + 1) l

/-- Embedding of `headers::MimeType`. -/
inductive MimeType where
  | AppJson
  | TextPlain
  | TextHtml
  | ImagePng
  | ImageJpeg
  | ImageGif
  | Unimplemented
  deriving DecidableEq, Repr

/-- Embedding of `MimeType::recognize`. -/
def MimeType.recognize (l : List Nat) : MimeType :=
  if l = bytes "application/json" then .AppJson
  else if l = bytes "text/plain" then .TextPlain
  else if l = bytes "text/html" then .TextHtml
  else if l = bytes "image/png" then .ImagePng
  else if l = bytes "image/jpeg" then .ImageJpeg
  else if l = bytes "image/jpg" then .ImageJpeg
  else if l = bytes "image/gif" then .ImageGif
  else .Unimplemented

/-- Embedding of `headers::ConnectionState`. -/
inductive ConnectionState where
  | Close
  | KeepAlive
  deriving DecidableEq, Repr

/-- Embedding of `ConnectionState::recognize`: defaults to keep-alive. -/
def ConnectionState.recognize (l : List Nat) : ConnectionState :=
  if l = bytes "close" then .Close else .KeepAlive

/-- Embedding of `headers::TrfrEncodingType`. -/
inductive TrfrEncodingType where
  | Gzip
  | Chunked
  | Deflate
  | GzipChunked
  | DeflateChunked
  | None
  | Unknown
  deriving DecidableEq, Repr

/-- Embedding of `TrfrEncodingType::recognize`. -/
def TrfrEncodingType.recognize (l : List Nat) : TrfrEncodingType :=
  if l = bytes "gzip" then .Gzip
  else if l = bytes "chunked" then .Chunked
  else if l = bytes "deflate" then .Deflate
  else if l = bytes "gzip, chunked" then .GzipChunked
  else if l = bytes "chunked, gzip" then .GzipChunked
  else if l = bytes "deflate, chunked" then .DeflateChunked
  else if l = bytes "chunked, deflate" then .DeflateChunked
  else .Unknown

/-- Embedding of `headers::Header`.  The `String` payloads of the Rust enum are
kept as the raw bytes of the (already UTF-8 validated) text. -/
inductive Header where
  | contentLength (n : Nat)
  | contentType (m : MimeType)
  | contentEncoding (s : List Nat)
  | contentLanguage (s : List Nat)
  | transferEncoding (t : TrfrEncodingType)
  | connection (c : ConnectionState)
  | unimplemented (name val : List Nat)
  deriving DecidableEq, Repr

/-- Embedding of `Header::serialize`: split the line at `": "`, with the value
being the second `split` segment; `none` is the Rust `Err` case. -/
def Header.serialize (l : List Nat) : Option Header :=
  match findSub2 58 32 l with
  | none => none
  | some i =>
    let name := l.take i
    let rest := l.drop (i + 2)
    let val := match findSub2 58 32 rest with
      | none => rest
      | some j => rest.take j
    if name = bytes "Content-Length" then
      match usizeParse val with
      | none => none
      | some n => some (.contentLength n)
    else if name = bytes "Content-Type" then some (.contentType (MimeType.recognize val))
    else if name = bytes "Content-Encoding" then some (.contentEncoding val)
    else if name = bytes "Content-Language" then some (.contentLanguage val)
    else if name = bytes "Transfer-Encoding" then
      some (.transferEncoding (TrfrEncodingType.recognize val))
    else if name = bytes "Connection" then some (.connection (ConnectionState.recognize val))
    else some (.unimplemented name val)

/-- Embedding of `HttpResErr` (diagnostic message payloads dropped). -/
inductive HttpResErr where
  | Empty
  | InvalidHeader
  | InvalidFirstLine
  | InvalidBody
  deriving DecidableEq, Repr

/-- Embedding of `response::StateSnapshot`. -/
structure StateSnapshot where
  conn_closed : Bool
  decoder_err : Bool
  upgrade : Bool
  upgrade_protocol : Nat
  deriving DecidableEq, Repr

/-- Fresh snapshot, `StateSnapshot::default`. -/
def StateSnapshot.default : StateSnapshot :=
  { conn_closed := false, decoder_err := false, upgrade := false, upgrade_protocol := 0 }

/-- Embedding of `response::DecoderState`. -/
inductive DecoderState where
  | Headers
  | Content
  | ChunkedContent
  | Finished
  | Error
  deriving DecidableEq, Repr

/-- Embedding of `response::Response`.  The status code is a `u16` value. -/
structure Response where
  code : Nat
  headers : List Header
  content : Option (List Nat)
  deriving DecidableEq, Repr

/-- Embedding of `response::DataDecoder`.  The `content` buffer is `Option<Vec<u8>>`
in the source but is `Some` at every point a decoder method observes it (it is
`take`n and immediately replenished inside `get_resp`), so it is embedded as a
plain byte list. -/
structure DataDecoder where
  encoding : TrfrEncodingType
  state : DecoderState
  content : List Nat
  resp : Option Response
  contentLen : Option Nat
  snap : StateSnapshot
  deriving DecidableEq, Repr

/-- Embedding of `DataDecoder::new`. -/
def DataDecoder.new : DataDecoder :=
  { encoding := .None
    state := .Headers
    content := []
    resp := none
    contentLen := none
    snap := StateSnapshot.default }

/-- Embedding of `DataDecoder::finished`. -/
def DataDecoder.finished (d : DataDecoder) : Bool := d.state == .Finished

/-- Outcome of a decoder entry point: `Ok(())`, a typed error (with the decoder
as mutated so far), or a Rust panic (out-of-bounds slice or `todo!()`). -/
inductive DRes where
  | ok (d : DataDecoder)
  | err (e : HttpResErr) (d : DataDecoder)
  | panicked
  deriving DecidableEq, Repr

/-- Outcome of `parse_headers`: on success the cursor position where the body
begins is returned along with the mutated decoder. -/
inductive PHRes where
  | ok (pos : Nat) (d : DataDecoder)
  | err (e : HttpResErr) (d : DataDecoder)
  | panicked
  deriving DecidableEq, Repr

/-- Field updates performed by `parse_headers` on each recognized header.
A `Transfer-Encoding` header records the encoding and moves to `ChunkedContent`
(whatever the recognized encoding is); `Content-Length` records the length.
The `Connection: close` arm in the source evaluates `state.upgrade == true` —
a comparison, not an assignment — so the snapshot never changes; the
`Upgrade` arm is unreachable because `Header::serialize` never produces an
`Upgrade` variant. -/
def applyHeader (d : DataDecoder) (h : Header) : DataDecoder :=
  match h with
  | .transferEncoding t => { d with state := .ChunkedContent, encoding := t }
  | .contentLength n => { d with contentLen := some n }
  | _ => d

/-- Outcome of the header-line loop in `parse_headers`: final cursor position,
decoder, and accumulated header list. -/
inductive HLRes where
  | ok (pos : Nat) (d : DataDecoder) (acc : List Header)
  | err (e : HttpResErr) (d : DataDecoder)
  deriving DecidableEq, Repr

/-- The header-line loop of `parse_headers`: repeatedly find the next `\r`,
UTF-8 validate the line (failure aborts with `InvalidHeader`), stop at an empty
line (consuming its `\r\n`), otherwise `serialize` the line — an unparseable
line is skipped, a parsed one is applied to the decoder and accumulated. -/
def headerLoopGo (data : List Nat) : Nat → Nat → DataDecoder → List Header → HLRes
  | 0, pos, d, acc => .ok pos d acc
  | fuel + 1, pos, d, acc =>
    if data.length ≤ pos then .ok pos d acc
    else
      let buf := data.drop pos
      match memchr 13 buf with
      | none => .ok pos d acc
      | some num =>
        let lineB := buf.take num
        if utf8Valid lineB = false then .err .InvalidHeader d
        else if num = 0 then .ok (pos + 2) d acc
        else
          match Header.serialize lineB with
          | none => headerLoopGo data fuel (pos + (num + 2)) d acc
          | some h => headerLoopGo data fuel (pos + (num + 2)) (applyHeader d h) (acc ++ [h])

/-- The loop entered with enough fuel that exhaustion is unreachable: every
iteration advances the cursor by at least two bytes, so `data.length + 1`
iterations always reach an exit, and the fuel-0 filler of `headerLoopGo`
coincides with the loop's exit on an exhausted buffer. -/
def headerLoop (data : List Nat) (pos : Nat) (d : DataDecoder) (acc : List Header) : HLRes :=
  headerLoopGo data (data.length + 1) pos d acc

/-- Embedding of `DataDecoder::parse_headers`.  The first line must contain a
`\r`; the slice `&buf[..num + 2]` panics when the `\r` is the final byte, and
the slice `&line[9..12]` panics when the status line is shorter than 12 bytes.
A UTF-8 or number-parse failure of the 3-byte code window both surface as
`InvalidFirstLine` (without entering the `Error` state), which the merged
`u16Parse` captures. -/
def parseHeaders (me : DataDecoder) (data : List Nat) : PHRes :=
  let me1 : DataDecoder := { me with state := .Content }
  match memchr 13 data with
  | none => .err .Empty { me1 with state := .Error }
  | some num =>
    let rdlen := num + 2
    if data.length < rdlen then .panicked
    else
      let line := data.take rdlen
      if line.length < 12 then .panicked
      else
        match u16Parse ((line.drop 9).take 3) with
        | none => .err .InvalidFirstLine me1
        | some code =>
          match headerLoop data rdlen me1 [] with
          | .err e d => .err e d
          | .ok pos d acc =>
            .ok pos { d with resp := some { code := code, headers := acc, content := none } }

/-- Embedding of `DataDecoder::chunked_decode`.  Each iteration finds the `\r`
terminating the hex length line; no `\r`, or `\r` first, marks the decoder
finished; a bad hex length is a fatal `InvalidBody`; a zero length finishes the
body.  Otherwise the source extends the content with the slice
`&buf[idx + 2 .. len + 3]` (panicking when those bounds do not fit the buffer)
and consumes `idx + len + 4` bytes. -/
def chunkedDecodeGo (data : List Nat) : Nat → Nat → DataDecoder → DRes
  | 0, _, d => .ok d
  | fuel + 1, pos, d =>
    if data.length ≤ pos then .ok d
    else
      let buf := data.drop pos
      match memchr 13 buf with
      | none => .ok { d with state := .Finished }
      | some idx =>
        if idx = 0 then .ok { d with state := .Finished }
        else
          match strToUsize (buf.take idx) with
          | none => .err .InvalidBody { d with state := .Error }
          | some len =>
            if len = 0 then .ok { d with state := .Finished }
            else if idx + 2 ≤ len + 3 ∧ len + 3 ≤ buf.length then
              chunkedDecodeGo data fuel (pos + (idx + len + 4))
                { d with content := d.content ++ (buf.drop (idx + 2)).take (len + 3 - (idx + 2)) }
            else .panicked

/-- The chunk loop entered with enough fuel that exhaustion is unreachable:
every iteration consumes at least six bytes, so `data.length + 1` iterations
always reach an exit, and the fuel-0 filler of `chunkedDecodeGo` coincides
with the loop's exit on an exhausted buffer. -/
def chunkedDecode (d : DataDecoder) (data : List Nat) (pos : Nat) : DRes :=
  chunkedDecodeGo data (data.length + 1) pos d

/-- Embedding of `DataDecoder::decode`.  A `Finished` decoder returns at once;
a `Headers` decoder first parses the header section; then the recorded
transfer encoding is dispatched — `Chunked` runs the chunk loop, `Gzip` and
`GzipChunked` are `todo!()` panics, and every other encoding appends the bytes
to the content buffer and finishes when the declared content length is matched
(immediately, when none was declared). -/
def DataDecoder.decode (d : DataDecoder) (data : List Nat) : DRes :=
  if d.state = .Finished then .ok d
  else
    let step : PHRes := if d.state = .Headers then parseHeaders d data else .ok 0 d
    match step with
    | .panicked => .panicked
    | .err e d' => .err e d'
    | .ok pos d1 =>
      match d1.encoding with
      | .Chunked => chunkedDecode d1 data pos
      | .Gzip => .panicked
      | .GzipChunked => .panicked
      | _ =>
        let content := d1.content ++ data.drop pos
        let ready : Bool := match d1.contentLen with
          | some len => len == content.length
          | none => true
        .ok { d1 with content := content, state := if ready then .Finished else d1.state }

/-- Outcome of `get_resp`: the optional response plus the decoder afterwards,
or the panic of `self.resp.take().unwrap()` on a finished decoder whose
response slot is empty. -/
inductive GRes where
  | ret (r : Option Response) (d : DataDecoder)
  | panicked
  deriving DecidableEq, Repr

/-- Embedding of `DataDecoder::get_resp`: on a finished decoder, hand out the
in-progress response with the accumulated content attached (`None` when the
buffer is empty) and replace the buffer with a fresh empty one.  Every other
field — including the `Finished` state, the recorded content length and the
encoding — is left as it was. -/
def DataDecoder.getResp (d : DataDecoder) : GRes :=
  if d.state = .Finished then
    match d.resp with
    | none => .panicked
    | some r =>
      let c := if d.content.length = 0 then none else some d.content
      .ret (some { r with content := c }) { d with resp := none, content := [] }
  else .ret none d

/-- Feeding a list of byte deliveries to the decoder in order; an error or
panic outcome short-circuits. -/
def feedList (d : DataDecoder) : List (List Nat) → DRes
  | [] => .ok d
  | p :: ps =>
    match d.decode p with
    | .ok d' => feedList d' ps
    | r => r

/-! Embedding of the TLS handshake loop of `src/stream.rs`.  The rustls engine
and the transport are external collaborators; they are modelled together as an
abstract state `σ` with the exact operations `Stream::handshake` drives:
`wants_write`, `wants_read`, `is_handshaking`, `io_write`, `io_read` and
`poll_flush`.  The inner `while` loops and the outer `loop` are fuel-indexed;
running out of fuel is a distinguished outcome that no theorem treats as
progress. -/

/-- Result of one `io_read`/`io_write` poll: `Pending`, `Ready(Ok(n))`, or
`Ready(Err(_))`. -/
inductive IoR where
  | pending
  | done (n : Nat)
  | ioerr
  deriving DecidableEq, Repr

/-- Result of a `poll_flush`. -/
inductive FlushR where
  | pending
  | flushed
  | ioerr
  deriving DecidableEq, Repr

/-- Abstract model of the TLS engine together with its transport: the queries
and effectful operations used by `Stream::handshake`.  Each operation returns
its result and the successor state. -/
structure Engine (σ : Type) where
  wantsWrite : σ → Bool
  wantsRead : σ → Bool
  handshaking : σ → Bool
  ioWrite : σ → IoR × σ
  ioRead : σ → IoR × σ
  flush : σ → FlushR × σ

/-- Outcome of the write half of a handshake round: accumulated written bytes,
whether the path blocked, whether a flush is required, and the engine state;
`failed` covers both a transport error and the `WriteZero` conversion of a
zero-byte write. -/
inductive WLRes (σ : Type) where
  | out (wlen : Nat) (block : Bool) (flushReq : Bool) (s : σ)
  | failed
  | fuelOut

/-- The `while self.conn.wants_write()` loop of `Stream::handshake`. -/
def writeLoop {σ : Type} (E : Engine σ) : Nat → σ → Nat → Bool → WLRes σ
  | 0, _, _, _ => .fuelOut
  | fuel + 1, s, wlen, fr =>
    if E.wantsWrite s then
      match E.ioWrite s with
      | (.ioerr, _) => .failed
      | (.done 0, _) => .failed
      | (.done (n + 1), s') => writeLoop E fuel s' (wlen + (n + 1)) true
      | (.pending, s') => .out wlen true fr s'
    else .out wlen false fr s

/-- Outcome of the read half of a handshake round. -/
inductive RLRes (σ : Type) where
  | out (rlen : Nat) (block : Bool) (eofSeen : Bool) (s : σ)
  | failed
  | fuelOut

/-- The `while self.conn.wants_read() && !eof` loop of `Stream::handshake`;
a zero-byte read records end-of-file and exits the loop. -/
def readLoop {σ : Type} (E : Engine σ) : Nat → σ → Nat → RLRes σ
  | 0, _, _ => .fuelOut
  | fuel + 1, s, rlen =>
    if E.wantsRead s then
      match E.ioRead s with
      | (.ioerr, _) => .failed
      | (.done 0, s') => .out rlen false true s'
      | (.done (n + 1), s') => readLoop E fuel s' (rlen + (n + 1))
      | (.pending, s') => .out rlen true false s'
    else .out rlen false false s

/-- Outcome of one round of the handshake `loop` body: the accumulated byte
counters, the two block flags, the end-of-file flag and the state. -/
inductive RoundRes (σ : Type) where
  | next (wlen rlen : Nat) (wblock rblock eofSeen : Bool) (s : σ)
  | failed
  | fuelOut

/-- One round of `Stream::handshake`: the write loop, a flush when any bytes
were written (a pending flush marks the write path blocked), then the read
loop. -/
def hsRound {σ : Type} (E : Engine σ) (fuel : Nat) (s : σ) (wlen rlen : Nat) : RoundRes σ :=
  match writeLoop E fuel s wlen false with
  | .failed => .failed
  | .fuelOut => .fuelOut
  | .out w wb fr s1 =>
    let flushStep : Option (Bool × σ) :=
      if fr then
        match E.flush s1 with
        | (.pending, s') => some (true, s')
        | (.flushed, s') => some (wb, s')
        | (.ioerr, _) => none
      else some (wb, s1)
    match flushStep with
    | none => .failed
    | some (wb', s2) =>
      match readLoop E fuel s2 rlen with
      | .failed => .failed
      | .fuelOut => .fuelOut
      | .out r rb eofSeen s3 => .next w r wb' rb eofSeen s3

/-- Outcome of `Stream::handshake` itself: `Poll::Pending` (carrying the state
the engine was left in), `Poll::Ready(Ok((read_len, write_len)))`, or
`Poll::Ready(Err(_))`. -/
inductive HsRes (σ : Type) where
  | pending (s : σ)
  | ready (rlen wlen : Nat) (s : σ)
  | failed
  | fuelOut

/-- The outer `loop` of `Stream::handshake` with its four-way `match`:
end-of-file while still handshaking is fatal; a finished handshake returns the
byte counters; a blocked round returns the counters when any byte moved and
suspends otherwise; an unblocked, unfinished round loops again. -/
def handshakeLoop {σ : Type} (E : Engine σ) : Nat → σ → Nat → Nat → HsRes σ
  | 0, _, _, _ => .fuelOut
  | fuel + 1, s, wlen, rlen =>
    match hsRound E (fuel + 1) s wlen rlen with
    | .failed => .failed
    | .fuelOut => .fuelOut
    | .next w r wb rb eofSeen s' =>
      match eofSeen, E.handshaking s' with
      | true, true => .failed
      | _, false => .ready r w s'
      | _, true =>
        if wb || rb then
          if r ≠ 0 || w ≠ 0 then .ready r w s' else .pending s'
        else handshakeLoop E fuel s' w r

/-- Embedding of `Stream::handshake`: the loop entered with zeroed counters. -/
def handshake {σ : Type} (E : Engine σ) (fuel : Nat) (s : σ) : HsRes σ :=
  handshakeLoop E fuel s 0 0

/-- Embedding of the two-state `Ready` future: `Handshaking(Stream)` or `Done`. -/
inductive RState (σ : Type) where
  | handshaking (s : σ)
  | done

/-- Observable outcome of one `poll` of the `Ready` future. -/
inductive PollOut (σ : Type) where
  | panicked
  | pending
  | readyOk (s : σ)
  | readyErr
  | fuelOut

/-- The `while stream.conn.is_handshaking()` loop inside `Ready::poll`; on
`Poll::Pending` the stream is put back into the `Handshaking` slot, while a
terminal result leaves the future `Done`. -/
def readyLoop {σ : Type} (E : Engine σ) : Nat → σ → PollOut σ × RState σ
  | 0, s => (.fuelOut, .handshaking s)
  | fuel + 1, s =>
    if E.handshaking s = false then (.readyOk s, .done)
    else
      match handshake E (fuel + 1) s with
      | .ready _ _ s' => readyLoop E fuel s'
      | .pending s' => (.pending, .handshaking s')
      | .failed => (.readyErr, .done)
      | .fuelOut => (.fuelOut, .handshaking s)

/-- Embedding of `impl Future for Ready`: `poll` replaces the slot with `Done`
up front, panics when it was already `Done`, and otherwise drives the
handshake loop. -/
def readyPoll {σ : Type} (E : Engine σ) (fuel : Nat) : RState σ → PollOut σ × RState σ
  | .done => (.panicked, .done)
  | .handshaking s => readyLoop E fuel s

/-- Decoder reached on the `Ok` outcome. -/
def DRes.okDecoder : DRes → Option DataDecoder
  | .ok d => some d
  | _ => none

/-- Decoder reached on the `Err` outcome. -/
def DRes.errDecoder : DRes → Option DataDecoder
  | .err _ d => some d
  | _ => none

/-- The response handed out by `get_resp`. -/
def GRes.response : GRes → Option Response
  | .ret r _ => r
  | .panicked => none

/-- The decoder left behind by `get_resp`. -/
def GRes.after : GRes → Option DataDecoder
  | .ret _ d => some d
  | .panicked => none

/-- Feed a list of byte deliveries to a fresh decoder and extract the response
`get_resp` would hand the connection actor. -/
def runDecoder (pieces : List (List Nat)) : Option Response :=
  match feedList DataDecoder.new pieces with
  | .ok d => d.getResp.response
  | _ => none

/-! Structured descriptions of well-formed response heads and chunked bodies,
used to state the fragmentation and framing theorems. -/

/-- Header lines joined with `\r\n` terminators. -/
def joinCRLF : List (List Nat) → List Nat
  | [] => []
  | l :: ls => l ++ 13 :: 10 :: joinCRLF ls

/-- Concatenation of a list of byte lists. -/
def catList : List (List Nat) → List Nat
  | [] => []
  | p :: ps => p ++ catList ps

/-- Total byte count of a list of deliveries. -/
def sumLen : List (List Nat) → Nat
  | [] => 0
  | p :: ps => p.length + sumLen ps

/-- A response head: a status line, then header lines, then the blank line. -/
def respHead (sl : List Nat) (lines : List (List Nat)) : List Nat :=
  sl ++ 13 :: 10 :: (joinCRLF lines ++ 13 :: 10 :: [])

/-- A header line the parser can traverse: nonempty, free of `\r`, valid UTF-8. -/
@[reducible] def GoodLine (l : List Nat) : Prop :=
  l ≠ [] ∧ 13 ∉ l ∧ utf8Valid l = true

/-- A status line the parser accepts: free of `\r`, at least 12 bytes long
(so the fixed code window exists), with the 3-byte window at offset 9 parsing
as the status code. -/
@[reducible] def GoodStatus (sl : List Nat) (code : Nat) : Prop :=
  13 ∉ sl ∧ 12 ≤ sl.length ∧ u16Parse ((sl.drop 9).take 3) = some code

/-- Effect of one traversed header line on the decoder: a recognized header is
applied, an unparseable one is skipped. -/
def effStep (d : DataDecoder) (l : List Nat) : DataDecoder :=
  match Header.serialize l with
  | some h => applyHeader d h
  | none => d

/-- Decoder field state after `parse_headers` has traversed the given header
lines starting from a fresh decoder (whose state was just set to `Content`). -/
def headEffects (lines : List (List Nat)) : DataDecoder :=
  lines.foldl effStep { DataDecoder.new with state := .Content }

/-- The single ASCII hex digit for a value below 16. -/
def hexDigitByte (n : Nat) : Nat := if n < 10 then 48 + n else 87 + n

/-- The chunk record `<hex-length>\r\n<payload>\r\n` for a payload of length
at most 15 (a single hex digit). -/
def chunkRecord (p : List Nat) : List Nat :=
  hexDigitByte p.length :: 13 :: 10 :: (p ++ 13 :: 10 :: [])

/-- A sequence of chunk records laid out back to back. -/
def joinRecords : List (List Nat) → List Nat
  | [] => []
  | p :: ps => chunkRecord p ++ joinRecords ps

/-- The terminating zero-length chunk record `0\r\n\r\n`. -/
def chunkTerm : List Nat := [48, 13, 10, 13, 10]

/-- A TLS engine/transport model in which both the read and the write path
suspend immediately while the handshake is still in progress. -/
def engineBothBlocked : Engine Nat :=
  { wantsWrite := fun _ => true
    wantsRead := fun _ => true
    handshaking := fun _ => true
    ioWrite := fun s => (IoR.pending, s)
    ioRead := fun s => (IoR.pending, s)
    flush := fun s => (FlushR.flushed, s) }

/-- A TLS engine/transport model that accepts one 5-byte ciphertext write and
then blocks, with the read path never wanted, still handshaking. -/
def enginePartialWrite : Engine Nat :=
  { wantsWrite := fun _ => true
    wantsRead := fun _ => false
    handshaking := fun _ => true
    ioWrite := fun s => if s = 0 then (IoR.done 5, 1) else (IoR.pending, s)
    ioRead := fun s => (IoR.pending, s)
    flush := fun s => (FlushR.flushed, s) }

/-- A TLS engine model whose handshake is already complete. -/
def engineDoneHs : Engine Unit :=
  { wantsWrite := fun _ => false
    wantsRead := fun _ => false
    handshaking := fun _ => false
    ioWrite := fun s => (IoR.pending, s)
    ioRead := fun s => (IoR.pending, s)
    flush := fun s => (FlushR.flushed, s) }

end Tunnel

namespace Tunnel

/-- C10: calling `decode` on a decoder whose state is `Finished` is a silent
no-op — it returns `Ok(())` and the decoder, all fields included, is exactly
the one passed in; the supplied bytes are discarded without an error. -/
theorem decode_finished_noop (d : DataDecoder) (data : List Nat)
    (h : d.state = DecoderState.Finished) :
    d.decode data = DRes.ok d := by
  simp [DataDecoder.decode, h]

theorem decode_finished_noop_witness :
    (DataDecoder.new.state = DecoderState.Finished → False) ∧
      ({ DataDecoder.new with state := .Finished } : DataDecoder).state = DecoderState.Finished ∧
      ({ DataDecoder.new with state := .Finished } : DataDecoder).decode (bytes "junk") =
        DRes.ok { DataDecoder.new with state := .Finished } :=
  ⟨by decide, rfl, decode_finished_noop { DataDecoder.new with state := .Finished } (bytes "junk") rfl⟩

/-- C7 (amended): immediately after `get_resp` hands a completed `Response` to
the caller, the content buffer and the in-progress response slot are empty,
but every other field is retained: the decoder stays in the `Finished` phase
and keeps its declared content length and detected encoding — it is not reset
to a fresh `Headers` state. -/
theorem getResp_clears_buffer_keeps_phase (d : DataDecoder) (r : Response)
    (hs : d.state = DecoderState.Finished) (hr : d.resp = some r) :
    d.getResp =
      GRes.ret (some { r with content := if d.content.length = 0 then none else some d.content })
        { d with resp := none, content := [] } := by
  simp [DataDecoder.getResp, hs, hr]

theorem getResp_clears_buffer_keeps_phase_witness :
    ({ DataDecoder.new with state := .Finished, contentLen := some 2, resp := some { code := 201, headers := [], content := none }, content := [65, 83] } : DataDecoder).getResp =
      GRes.ret (some { code := 201, headers := [], content := some [65, 83] })
        { DataDecoder.new with state := .Finished, contentLen := some 2, resp := none, content := [] } :=
  getResp_clears_buffer_keeps_phase _ _ rfl rfl

/-- C7 counterexample: after decoding a complete `Content-Length: 2` response
and extracting it with `get_resp`, the decoder still reports the `Finished`
phase and still carries the declared content length — it is not in a fresh
empty state, so the Finished phase and content length do carry over. -/
theorem getResp_counterexample_not_fresh :
    ((DataDecoder.new.decode (bytes "HTTP/1.1 200 OK\r\nContent-Length: 2\r\n\r\nhi")).okDecoder.bind
        fun d => (d.getResp.after.map fun d2 => (d2.state, d2.contentLen))) =
      some (DecoderState.Finished, some 2) := by
  decide

/-- C4: feeding the malformed 4-byte input `"ab\r\n"` — a truncated status
line whose first `\r` sits before the fixed status-code offset — makes
`DataDecoder::decode` evaluate the slice `&line[9..12]` of a 4-byte line,
which panics instead of returning a typed error. -/
theorem decode_truncated_status_line_panics :
    DataDecoder.new.decode (bytes "ab\r\n") = DRes.panicked := by
  decide

/-- C5 (amended): the `Error` state is not terminal — `decode` never checks
for it.  A decoder in the `Error` state with no transfer encoding recorded
accepts the supplied bytes, appends them to the content buffer, and moves to
`Finished` exactly when the content-length rule fires (immediately when no
length was declared); with a chunked encoding it simply resumes chunk
decoding. -/
theorem decode_error_state_accepts_bytes (d : DataDecoder) (data : List Nat)
    (hs : d.state = DecoderState.Error) (he : d.encoding = TrfrEncodingType.None) :
    d.decode data =
      DRes.ok { d with content := d.content ++ data,
                       state := if (match d.contentLen with
                           | some len => len == (d.content ++ data).length
                           | none => true) then .Finished else .Error } := by
  simp only [DataDecoder.decode, hs]
  simp [he, hs]

theorem decode_error_state_accepts_bytes_witness :
    ({ DataDecoder.new with state := .Error } : DataDecoder).decode [120] =
      DRes.ok { DataDecoder.new with state := .Finished, content := [120] } :=
  decode_error_state_accepts_bytes { DataDecoder.new with state := .Error } [120] rfl rfl

/-- C5 counterexample: a decoder driven into the `Error` state by a malformed
chunk length (after chunked headers) then accepts a later `decode` call — the
call appends the chunk payload `"test"` to the content and transitions the
state to `Finished`, contradicting "no further bytes are accepted". -/
theorem decode_error_state_counterexample :
    ((DataDecoder.new.decode
          (bytes "HTTP/1.1 201 Created\r\nTransfer-Encoding: chunked\r\n\r\nq\r\n")).errDecoder.map
        fun d1 => (d1.state, (d1.decode (bytes "4\r\ntest\r\n0\r\n\r\n")).okDecoder.map
          fun d2 => (d2.state, d2.content))) =
      some (DecoderState.Error, some (DecoderState.Finished, bytes "test")) := by
  decide

/-- C1 counterexample: the well-formed response
`"HTTP/1.1 201 Created\r\nContent-Length: 2\r\n\r\nAS"` decodes, unsplit, to a
response with status 201, the `Content-Length` header, and body `"AS"`; split
after the status line, the very first `decode` call already ends the response
with no headers and no body, so the partition changes the parsed response. -/
theorem decode_fragmentation_counterexample :
    runDecoder [bytes "HTTP/1.1 201 Created\r\nContent-Length: 2\r\n\r\nAS"] =
        some { code := 201, headers := [Header.contentLength 2], content := some (bytes "AS") } ∧
      runDecoder [bytes "HTTP/1.1 201 Created\r\n", bytes "Content-Length: 2\r\n\r\nAS"] =
        some { code := 201, headers := [], content := none } := by
  constructor <;> decide

/-- C2 counterexample: after headers declaring chunked encoding, delivering the
chunk record `"4\r\ntest\r\n0\r\n\r\n"` split as `"4"` then the remainder makes
the decoder finish at the first body call with empty accumulated content — the
concatenation `"test"` of the chunk payloads is lost, so a split in the middle
of a chunk record is not handled. -/
theorem chunked_split_counterexample :
    ((feedList DataDecoder.new
          [bytes "HTTP/1.1 201 Created\r\nTransfer-Encoding: chunked\r\n\r\n", bytes "4",
            bytes "\r\ntest\r\n0\r\n\r\n"]).okDecoder.map
        fun d => (d.finished, d.content)) = some (true, []) ∧
      bytes "test" ≠ ([] : List Nat) := by
  constructor <;> decide

/-! Helper lemmas describing the header loop and the chunk loop on structured
input.  These drive the fragmentation/framing theorems below. -/

theorem memchr_append_cons (c : Nat) (l r : List Nat) (h : c ∉ l) :
    memchr c (l ++ c :: r) = some l.length := by
  induction l with
  | nil => simp [memchr]
  | cons b bs ih =>
    simp only [List.mem_cons, not_or] at h
    have hb : ¬ b = c := fun hbc => h.1 hbc.symm
    simp [memchr, hb, ih h.2]

theorem take_len_append (l r : List Nat) : (l ++ r).take l.length = l := by
  induction l with
  | nil => simp
  | cons b bs ih => simp [ih]

theorem drop_len2_append (l : List Nat) (a b : Nat) (r : List Nat) :
    (l ++ a :: b :: r).drop (l.length + 2) = r := by
  induction l with
  | nil => simp
  | cons x xs ih =>
    show (xs ++ a :: b :: r).drop (xs.length + 2) = r
    exact ih

theorem drop_add_shift (data : List Nat) (pos k : Nat) :
    data.drop (pos + k) = (data.drop pos).drop k := by
  rw [List.drop_drop, Nat.add_comm]

theorem utf8Valid_nil : utf8Valid [] = true := rfl

/-- The header loop on input structured as good header lines followed by the
blank line: it consumes exactly through the blank line — independently of what
follows — applying each recognized header and accumulating it. -/
theorem headerLoopGo_structured (data : List Nat) (lines : List (List Nat)) :
    ∀ fuel pos d acc rest,
      (∀ l ∈ lines, GoodLine l) →
      data.drop pos = joinCRLF lines ++ 13 :: 10 :: rest →
      lines.length < fuel →
      headerLoopGo data fuel pos d acc =
        HLRes.ok (pos + ((joinCRLF lines).length + 2)) (lines.foldl effStep d)
          (acc ++ lines.filterMap Header.serialize) := by
  induction lines with
  | nil =>
    intro fuel pos d acc rest _ hdrop hfuel
    obtain ⟨f, rfl⟩ : ∃ f, fuel = f + 1 := ⟨fuel - 1, by omega⟩
    have hdrop' : data.drop pos = 13 :: 10 :: rest := by simpa [joinCRLF] using hdrop
    have hpos : ¬ data.length ≤ pos := by
      have h := congrArg List.length hdrop'
      simp only [List.length_drop, List.length_cons] at h
      omega
    rw [headerLoopGo, if_neg hpos]
    simp only [hdrop']
    simp [memchr, joinCRLF, utf8Valid_nil]
  | cons l ls ih =>
    intro fuel pos d acc rest hg hdrop hfuel
    obtain ⟨f, rfl⟩ : ∃ f, fuel = f + 1 := ⟨fuel - 1, by omega⟩
    have hgl : GoodLine l := hg l (by simp)
    have hdrop' : data.drop pos = l ++ 13 :: 10 :: (joinCRLF ls ++ 13 :: 10 :: rest) := by
      simpa [joinCRLF, List.append_assoc] using hdrop
    have hpos : ¬ data.length ≤ pos := by
      have h := congrArg List.length hdrop'
      simp only [List.length_drop, List.length_append, List.length_cons] at h
      omega
    have hm : memchr 13 (l ++ 13 :: 10 :: (joinCRLF ls ++ 13 :: 10 :: rest)) = some l.length :=
      memchr_append_cons _ _ _ hgl.2.1
    have hnum : l.length ≠ 0 := by
      intro h0
      exact hgl.1 (List.length_eq_zero.mp h0)
    have hd2 : data.drop (pos + (l.length + 2)) = joinCRLF ls ++ 13 :: 10 :: rest := by
      rw [drop_add_shift, hdrop']
      exact drop_len2_append l 13 10 _
    have hgls : ∀ x ∈ ls, GoodLine x := fun x hx => hg x (by simp [hx])
    have hfuel' : ls.length < f := by
      simp only [List.length_cons] at hfuel
      omega
    have harith : pos + (l.length + 2) + ((joinCRLF ls).length + 2) =
        pos + ((joinCRLF (l :: ls)).length + 2) := by
      simp only [joinCRLF, List.length_append, List.length_cons]
      omega
    rw [headerLoopGo, if_neg hpos]
    simp only [hdrop', hm, take_len_append, hgl.2.2, Bool.true_eq_false, if_false, if_neg hnum]
    cases hser : Header.serialize l with
    | none =>
      show headerLoopGo data f (pos + (l.length + 2)) d acc = _
      rw [ih f (pos + (l.length + 2)) d acc rest hgls hd2 hfuel', harith]
      have heff : effStep d l = d := by simp [effStep, hser]
      simp [heff, List.filterMap_cons, hser]
    | some h =>
      show headerLoopGo data f (pos + (l.length + 2)) (applyHeader d h) (acc ++ [h]) = _
      rw [ih f (pos + (l.length + 2)) (applyHeader d h) (acc ++ [h]) rest hgls hd2 hfuel', harith]
      have heff : effStep d l = applyHeader d h := by simp [effStep, hser]
      simp [heff, List.filterMap_cons, hser]

theorem take_len2_append (l : List Nat) (a b : Nat) (r : List Nat) :
    (l ++ a :: b :: r).take (l.length + 2) = l ++ [a, b] := by
  induction l with
  | nil => rfl
  | cons x xs ih =>
    show x :: (xs ++ a :: b :: r).take (xs.length + 2) = (x :: xs) ++ [a, b]
    rw [ih]
    rfl

theorem joinCRLF_length_ge (lines : List (List Nat)) :
    lines.length ≤ (joinCRLF lines).length := by
  induction lines with
  | nil => simp [joinCRLF]
  | cons l ls ih =>
    simp only [joinCRLF, List.length_append, List.length_cons]
    omega

theorem drop_head_all (sl J rest : List Nat) :
    (sl ++ 13 :: 10 :: (J ++ 13 :: 10 :: rest)).drop (sl.length + 2 + (J.length + 2)) = rest := by
  rw [drop_add_shift, drop_len2_append sl 13 10 _]
  exact drop_len2_append J 13 10 rest

/-- `parse_headers` on a well-formed head (status line, good header lines,
blank line) followed by arbitrary trailing bytes: it succeeds, pointing the
cursor just past the blank line, with the recognized headers applied to the
decoder and collected into the in-progress response — independently of the
trailing bytes. -/
theorem parseHeaders_structured (sl : List Nat) (code : Nat) (lines : List (List Nat))
    (rest : List Nat) (d : DataDecoder) (hsl : GoodStatus sl code)
    (hlines : ∀ l ∈ lines, GoodLine l) :
    parseHeaders d (sl ++ 13 :: 10 :: (joinCRLF lines ++ 13 :: 10 :: rest)) =
      PHRes.ok (sl.length + 2 + ((joinCRLF lines).length + 2))
        { lines.foldl effStep { d with state := .Content } with
          resp := some { code := code, headers := lines.filterMap Header.serialize,
                         content := none } } := by
  have hsl_len : 12 ≤ sl.length := hsl.2.1
  have hm : memchr 13 (sl ++ 13 :: 10 :: (joinCRLF lines ++ 13 :: 10 :: rest)) =
      some sl.length := memchr_append_cons _ _ _ hsl.1
  have hlen : ¬ (sl ++ 13 :: 10 :: (joinCRLF lines ++ 13 :: 10 :: rest)).length <
      sl.length + 2 := by
    simp only [List.length_append, List.length_cons]
    omega
  have htake : (sl ++ 13 :: 10 :: (joinCRLF lines ++ 13 :: 10 :: rest)).take (sl.length + 2) =
      sl ++ [13, 10] := take_len2_append sl 13 10 _
  have hlin : ¬ (sl ++ [13, 10]).length < 12 := by
    simp only [List.length_append, List.length_cons, List.length_nil]
    omega
  have hwin : ((sl ++ [13, 10]).drop 9).take 3 = (sl.drop 9).take 3 := by
    rw [List.drop_append_of_le_length (by omega : 9 ≤ sl.length)]
    rw [List.take_append_of_le_length]
    simp only [List.length_drop]
    omega
  have hdl : (sl ++ 13 :: 10 :: (joinCRLF lines ++ 13 :: 10 :: rest)).drop (sl.length + 2) =
      joinCRLF lines ++ 13 :: 10 :: rest := drop_len2_append sl 13 10 _
  have hfl : lines.length <
      (sl ++ 13 :: 10 :: (joinCRLF lines ++ 13 :: 10 :: rest)).length + 1 := by
    have := joinCRLF_length_ge lines
    simp only [List.length_append, List.length_cons]
    omega
  rw [parseHeaders, hm]
  simp only [htake, hwin, hsl.2.2, if_neg hlen, if_neg hlin]
  rw [headerLoop, headerLoopGo_structured _ lines _ (sl.length + 2)
    { d with state := .Content } [] rest hlines hdl hfl]
  simp

/-- A recognized transfer encoding is never `None`. -/
theorem recognize_ne_none (v : List Nat) :
    TrfrEncodingType.recognize v ≠ TrfrEncodingType.None := by
  unfold TrfrEncodingType.recognize
  split_ifs <;> simp

/-- `Header::serialize` only produces `TransferEncoding` payloads via
`TrfrEncodingType::recognize`, which never yields `None`. -/
theorem serialize_tE_ne_none (l : List Nat) (t : TrfrEncodingType)
    (h : Header.serialize l = some (.transferEncoding t)) : t ≠ TrfrEncodingType.None := by
  simp only [Header.serialize] at h
  split at h
  · exact absurd h (by simp)
  · split_ifs at h
    · split at h
      · exact absurd h (by simp)
      · exact absurd h (by simp)
    · exact absurd h (by simp)
    · exact absurd h (by simp)
    · exact absurd h (by simp)
    · have ht := Header.transferEncoding.inj (Option.some.inj h)
      rw [← ht]
      exact recognize_ne_none _
    · exact absurd h (by simp)
    · exact absurd h (by simp)

/-- Fields `content`, `resp` and `snap` are untouched by header application. -/
theorem applyHeader_keeps (d : DataDecoder) (h : Header) :
    (applyHeader d h).content = d.content ∧ (applyHeader d h).resp = d.resp ∧
      (applyHeader d h).snap = d.snap := by
  cases h <;> simp [applyHeader]

theorem fold_keeps (lines : List (List Nat)) :
    ∀ d : DataDecoder,
      (lines.foldl effStep d).content = d.content ∧
        (lines.foldl effStep d).resp = d.resp ∧ (lines.foldl effStep d).snap = d.snap := by
  induction lines with
  | nil => intro d; exact ⟨rfl, rfl, rfl⟩
  | cons l ls ih =>
    intro d
    have h1 := ih (effStep d l)
    have h2 : (effStep d l).content = d.content ∧ (effStep d l).resp = d.resp ∧
        (effStep d l).snap = d.snap := by
      unfold effStep
      split
      · exact applyHeader_keeps d _
      · exact ⟨rfl, rfl, rfl⟩
    simp only [List.foldl_cons]
    exact ⟨h1.1.trans h2.1, h1.2.1.trans h2.2.1, h1.2.2.trans h2.2.2⟩

/-- Invariant of the header fold: the state is `Content` while no transfer
encoding has been recorded and `ChunkedContent` once one has. -/
theorem fold_state_inv (lines : List (List Nat)) :
    ∀ d : DataDecoder,
      (d.encoding = .None ∧ d.state = .Content) ∨
          (d.encoding ≠ .None ∧ d.state = .ChunkedContent) →
        ((lines.foldl effStep d).encoding = .None ∧ (lines.foldl effStep d).state = .Content) ∨
          ((lines.foldl effStep d).encoding ≠ .None ∧
            (lines.foldl effStep d).state = .ChunkedContent) := by
  induction lines with
  | nil => intro d hd; exact hd
  | cons l ls ih =>
    intro d hd
    simp only [List.foldl_cons]
    apply ih
    unfold effStep
    split
    · next h hser =>
      cases h with
      | transferEncoding t =>
        right
        exact ⟨serialize_tE_ne_none l t hser, rfl⟩
      | contentLength n =>
        rcases hd with ⟨h1, h2⟩ | ⟨h1, h2⟩
        · left; exact ⟨h1, h2⟩
        · right; exact ⟨h1, h2⟩
      | _ => simpa [applyHeader] using hd
    · exact hd

theorem decode_stays_finished (d : DataDecoder) (p : List Nat)
    (h : d.state = DecoderState.Finished) : d.decode p = DRes.ok d := by
  simp [DataDecoder.decode, h]

theorem feedList_finished (ps : List (List Nat)) (d : DataDecoder)
    (h : d.state = DecoderState.Finished) : feedList d ps = DRes.ok d := by
  induction ps with
  | nil => rfl
  | cons p pr ih => simp [feedList, decode_stays_finished d p h, ih]

theorem feedList_append_ok (xs ys : List (List Nat)) :
    ∀ d d' : DataDecoder, feedList d xs = DRes.ok d' →
      feedList d (xs ++ ys) = feedList d' ys := by
  induction xs with
  | nil =>
    intro d d' h
    simp only [feedList] at h
    cases h
    rfl
  | cons x xr ih =>
    intro d d' h
    simp only [feedList] at h ⊢
    cases hx : d.decode x with
    | ok d1 => rw [hx] at h; exact ih d1 d' h
    | err e d1 => rw [hx] at h; exact absurd h (by simp)
    | panicked => rw [hx] at h; exact absurd h (by simp)

theorem sumLen_cat (ps : List (List Nat)) : sumLen ps = (catList ps).length := by
  induction ps with
  | nil => rfl
  | cons p pr ih => simp [sumLen, catList, ih]

theorem catList_append (xs ys : List (List Nat)) :
    catList (xs ++ ys) = catList xs ++ catList ys := by
  induction xs with
  | nil => rfl
  | cons x xr ih => simp [catList, ih]

/-- `decode` on a decoder sitting in the `Content` phase with no transfer
encoding: the bytes are appended and the decoder finishes exactly when the
declared length equals the new buffer length. -/
theorem decode_content_step (d : DataDecoder) (p : List Nat) (N : Nat)
    (hs : d.state = DecoderState.Content) (he : d.encoding = TrfrEncodingType.None)
    (hN : d.contentLen = some N) :
    d.decode p =
      DRes.ok { d with content := d.content ++ p,
                       state := if N = (d.content ++ p).length then .Finished
                                else .Content } := by
  simp only [DataDecoder.decode, hs]
  simp [he, hN, hs, beq_iff_eq]

/-- The Content-phase feeding invariant behind the content-length claims:
starting from an unfinished `Content` decoder, feeding any deliveries leaves
an `Ok` decoder that has finished exactly when some prefix of the deliveries
brings the accumulated length to the declared `N`; the accumulated content is
the concatenation of exactly the consumed prefix. -/
theorem feed_content_aux (pieces : List (List Nat)) :
    ∀ (d : DataDecoder) (N : Nat),
      d.encoding = TrfrEncodingType.None →
      d.contentLen = some N →
      d.state = DecoderState.Content →
      d.content.length ≠ N →
      ∃ dk, feedList d pieces = DRes.ok dk ∧
        dk.encoding = TrfrEncodingType.None ∧ dk.contentLen = some N ∧ dk.resp = d.resp ∧
        (dk.state = DecoderState.Content ∨ dk.state = DecoderState.Finished) ∧
        ((dk.state = DecoderState.Finished) ↔
          ∃ j, j ≤ pieces.length ∧ d.content.length + sumLen (pieces.take j) = N) ∧
        (dk.state = DecoderState.Finished →
          ∃ j, j ≤ pieces.length ∧ d.content.length + sumLen (pieces.take j) = N ∧
            dk.content = d.content ++ catList (pieces.take j)) ∧
        (dk.state = DecoderState.Content →
          dk.content = d.content ++ catList pieces ∧ dk.content.length ≠ N) := by
  induction pieces with
  | nil =>
    intro d N he hN hs hne
    refine ⟨d, rfl, he, hN, rfl, Or.inl hs, ?_, ?_, ?_⟩
    · constructor
      · intro hfin; rw [hs] at hfin; exact absurd hfin (by simp)
      · rintro ⟨j, hj, hsum⟩
        have hj0 : j = 0 := Nat.le_zero.mp (by simpa using hj)
        subst hj0
        simp [sumLen] at hsum
        exact absurd hsum hne
    · intro hfin; rw [hs] at hfin; exact absurd hfin (by simp)
    · intro _
      simp [catList]
      exact hne
  | cons p ps ih =>
    intro d N he hN hs hne
    rw [show feedList d (p :: ps) = (match d.decode p with
      | .ok d' => feedList d' ps
      | r => r) from rfl]
    rw [decode_content_step d p N hs he hN]
    have hlenap := List.length_append d.content p
    by_cases hq : N = (d.content ++ p).length
    · -- this delivery completes the body
      rw [if_pos hq]
      set dfin : DataDecoder :=
        { d with content := d.content ++ p, state := DecoderState.Finished } with hdfin
      have hfl : feedList dfin ps = DRes.ok dfin := feedList_finished ps dfin rfl
      refine ⟨dfin, hfl, he, hN, rfl, Or.inr rfl, ?_, ?_, ?_⟩
      · constructor
        · intro _
          refine ⟨1, by simp, ?_⟩
          simp only [List.take_succ_cons, List.take_zero, sumLen]
          omega
        · intro _; rfl
      · intro _
        refine ⟨1, by simp, ?_, ?_⟩
        · simp only [List.take_succ_cons, List.take_zero, sumLen]
          omega
        · simp [hdfin, catList]
      · intro hc; exact absurd hc (by simp [hdfin])
    · -- not yet: the decoder stays in Content with the bytes appended
      rw [if_neg hq]
      set dmid : DataDecoder :=
        { d with content := d.content ++ p, state := DecoderState.Content } with hdmid
      have hne' : dmid.content.length ≠ N := by
        show (d.content ++ p).length ≠ N
        exact fun h => hq h.symm
      obtain ⟨dk, hfeed, hke, hkN, hkresp, hkst, hkiff, hkfin, hkcont⟩ :=
        ih dmid N he hN rfl hne'
      refine ⟨dk, hfeed, hke, hkN, hkresp, hkst, ?_, ?_, ?_⟩
      · rw [hkiff]
        constructor
        · rintro ⟨j, hj, hsum⟩
          refine ⟨j + 1, by simpa using Nat.succ_le_succ hj, ?_⟩
          simp only [List.take_succ_cons, sumLen, hdmid, List.length_append] at hsum ⊢
          omega
        · rintro ⟨j, hj, hsum⟩
          cases j with
          | zero =>
            simp [sumLen] at hsum
            exact absurd hsum hne
          | succ j' =>
            refine ⟨j', by simpa using Nat.le_of_succ_le_succ hj, ?_⟩
            simp only [List.take_succ_cons, sumLen, hdmid, List.length_append] at hsum ⊢
            omega
      · intro hkf
        obtain ⟨j, hj, hsum, hcnt⟩ := hkfin hkf
        refine ⟨j + 1, by simpa using Nat.succ_le_succ hj, ?_, ?_⟩
        · simp only [List.take_succ_cons, sumLen, hdmid, List.length_append] at hsum ⊢
          omega
        · simp only [List.take_succ_cons, catList, hdmid] at hcnt ⊢
          simp [hcnt, List.append_assoc]
      · intro hkc
        obtain ⟨hcnt, hne2⟩ := hkcont hkc
        constructor
        · simp only [hdmid, catList] at hcnt ⊢
          simp [hcnt, List.append_assoc]
        · exact hne2

theorem new_state_headers : DataDecoder.new.state = DecoderState.Headers := rfl

/-- `decode` on a fresh decoder fed a well-formed head whose headers record
content length `N` and no transfer encoding, followed by `rest` body bytes:
the headers are consumed, `rest` is accumulated, and the decoder finishes
exactly when `N` matches the accumulated length. -/
theorem decode_head_general (sl : List Nat) (code : Nat) (lines : List (List Nat))
    (rest : List Nat) (N : Nat) (hsl : GoodStatus sl code) (hlines : ∀ l ∈ lines, GoodLine l)
    (hcl : (headEffects lines).contentLen = some N)
    (henc : (headEffects lines).encoding = TrfrEncodingType.None) :
    DataDecoder.new.decode (sl ++ 13 :: 10 :: (joinCRLF lines ++ 13 :: 10 :: rest)) =
      DRes.ok { headEffects lines with
                resp := some { code := code, headers := lines.filterMap Header.serialize,
                               content := none },
                content := rest,
                state := if N = rest.length then .Finished else .Content } := by
  have hHE : lines.foldl effStep { DataDecoder.new with state := .Content } =
      headEffects lines := rfl
  have hinv := fold_state_inv lines { DataDecoder.new with state := .Content }
    (Or.inl ⟨rfl, rfl⟩)
  have hkeeps := fold_keeps lines { DataDecoder.new with state := .Content }
  rw [hHE] at hinv hkeeps
  have hstate : (headEffects lines).state = DecoderState.Content := by
    rcases hinv with ⟨_, h2⟩ | ⟨h1, _⟩
    · exact h2
    · exact absurd henc h1
  have hcontent : (headEffects lines).content = [] := hkeeps.1
  have hdropP : (sl ++ 13 :: 10 :: (joinCRLF lines ++ 13 :: 10 :: rest)).drop
      (sl.length + 2 + ((joinCRLF lines).length + 2)) = rest := drop_head_all sl _ rest
  simp only [DataDecoder.decode, new_state_headers]
  rw [parseHeaders_structured sl code lines rest DataDecoder.new hsl hlines, hHE]
  simp only [henc, hcl, hstate, hcontent, hdropP, beq_iff_eq, List.nil_append]
  by_cases hq : N = rest.length <;> simp [hq] <;> refine ⟨by omega, hdropP⟩

/-- C3: after a well-formed head declaring `Content-Length: N` with no
transfer encoding, and for every sequence of body deliveries, the decoder has
reached `Finished` after the first `k` deliveries exactly when for some prefix
of at most `k` deliveries the accumulated byte count equals `N` — never while
fewer than `N` bytes have been accumulated, never once the count has jumped
past `N`, and permanently from the delivery whose bytes complete `N`. -/
theorem content_length_finished_iff (sl : List Nat) (code : Nat) (lines : List (List Nat))
    (N : Nat) (pieces : List (List Nat)) (k : Nat) (hsl : GoodStatus sl code)
    (hlines : ∀ l ∈ lines, GoodLine l)
    (hcl : (headEffects lines).contentLen = some N)
    (henc : (headEffects lines).encoding = TrfrEncodingType.None) :
    ∃ d1 dk, DataDecoder.new.decode (respHead sl lines) = DRes.ok d1 ∧
      feedList d1 (pieces.take k) = DRes.ok dk ∧
      (dk.finished = true ↔ ∃ j, j ≤ k ∧ sumLen (pieces.take j) = N) := by
  have hhead : DataDecoder.new.decode (respHead sl lines) =
      DRes.ok { headEffects lines with
                resp := some { code := code, headers := lines.filterMap Header.serialize,
                               content := none },
                content := ([] : List Nat),
                state := if N = ([] : List Nat).length then .Finished else .Content } := by
    rw [show respHead sl lines = sl ++ 13 :: 10 :: (joinCRLF lines ++ 13 :: 10 :: []) from by
      simp [respHead]]
    exact decode_head_general sl code lines [] N hsl hlines hcl henc
  by_cases hN0 : N = 0
  · -- the head call itself finishes: zero bytes already equal N
    subst hN0
    simp only [List.length_nil, if_pos rfl] at hhead
    refine ⟨_, _, hhead, feedList_finished _ _ rfl, ?_⟩
    constructor
    · intro _
      exact ⟨0, Nat.zero_le k, rfl⟩
    · intro _
      simp [DataDecoder.finished]
  · simp only [List.length_nil, if_neg hN0] at hhead
    obtain ⟨dk, hfeed, _, _, _, _, hkiff, _, _⟩ :=
      feed_content_aux (pieces.take k)
        { headEffects lines with
          resp := some { code := code, headers := lines.filterMap Header.serialize,
                         content := none },
          content := ([] : List Nat), state := .Content }
        N henc hcl rfl (by exact fun h => hN0 (by simpa using h.symm))
    refine ⟨_, dk, hhead, hfeed, ?_⟩
    have hfin_iff : dk.finished = true ↔ dk.state = DecoderState.Finished := by
      simp [DataDecoder.finished]
    rw [hfin_iff, hkiff]
    simp only [List.length_nil, Nat.zero_add]
    constructor
    · rintro ⟨j, hj, hsum⟩
      have hjlen : (pieces.take k).length ≤ k := by
        simp only [List.length_take]
        omega
      refine ⟨j, le_trans hj hjlen, ?_⟩
      rw [List.take_take, Nat.min_eq_left (le_trans hj hjlen)] at hsum
      exact hsum
    · rintro ⟨j, hj, hsum⟩
      have hsum' : sumLen (pieces.take (min j pieces.length)) = N := by
        rcases le_or_lt j pieces.length with hle | hlt
        · rwa [Nat.min_eq_left hle]
        · rw [Nat.min_eq_right (le_of_lt hlt), List.take_length]
          rwa [List.take_of_length_le (le_of_lt hlt)] at hsum
      refine ⟨min j pieces.length, ?_, ?_⟩
      · simp only [List.length_take]
        omega
      · rw [List.take_take, Nat.min_eq_left (by omega : min j pieces.length ≤ k)]
        exact hsum'

theorem getResp_run (d : DataDecoder) (r : Response) (hs : d.state = DecoderState.Finished)
    (hr : d.resp = some r) :
    d.getResp =
      GRes.ret (some { r with content := if d.content.length = 0 then none else some d.content })
        { d with resp := none, content := [] } := by
  simp [DataDecoder.getResp, hs, hr]

/-- C1 (amended): for a well-formed response framed by `Content-Length: N`
(no transfer encoding) whose complete head arrives in the first delivery,
every partition of the body across subsequent `decode` calls finishes the
decoder and yields exactly the response obtained from the single unsplit
buffer — same status code, same header list, same body. -/
theorem fragmentation_invariance_content_length (sl : List Nat) (code : Nat)
    (lines : List (List Nat)) (N : Nat) (body : List Nat) (pieces : List (List Nat))
    (hsl : GoodStatus sl code) (hlines : ∀ l ∈ lines, GoodLine l)
    (hcl : (headEffects lines).contentLen = some N)
    (henc : (headEffects lines).encoding = TrfrEncodingType.None)
    (hbody : body.length = N) (hcat : catList pieces = body) :
    ∃ dU d1 dS,
      DataDecoder.new.decode (respHead sl lines ++ body) = DRes.ok dU ∧
      DataDecoder.new.decode (respHead sl lines) = DRes.ok d1 ∧
      feedList d1 pieces = DRes.ok dS ∧
      dU.finished = true ∧ dS.finished = true ∧
      dU.getResp.response =
        some { code := code, headers := lines.filterMap Header.serialize,
               content := if N = 0 then none else some body } ∧
      dS.getResp.response = dU.getResp.response := by
  have hheadU : DataDecoder.new.decode (respHead sl lines ++ body) =
      DRes.ok { headEffects lines with
                resp := some { code := code, headers := lines.filterMap Header.serialize,
                               content := none },
                content := body, state := .Finished } := by
    rw [show respHead sl lines ++ body = sl ++ 13 :: 10 :: (joinCRLF lines ++ 13 :: 10 :: body)
      from by simp [respHead, List.append_assoc]]
    rw [decode_head_general sl code lines body N hsl hlines hcl henc, if_pos hbody.symm]
  have hhead1 : DataDecoder.new.decode (respHead sl lines) =
      DRes.ok { headEffects lines with
                resp := some { code := code, headers := lines.filterMap Header.serialize,
                               content := none },
                content := ([] : List Nat),
                state := if N = 0 then .Finished else .Content } := by
    rw [show respHead sl lines = sl ++ 13 :: 10 :: (joinCRLF lines ++ 13 :: 10 :: []) from by
      simp [respHead]]
    exact decode_head_general sl code lines [] N hsl hlines hcl henc
  have hrespU : ({ headEffects lines with
      resp := some { code := code, headers := lines.filterMap Header.serialize, content := none },
      content := body, state := DecoderState.Finished } : DataDecoder).getResp.response =
      some { code := code, headers := lines.filterMap Header.serialize,
             content := if N = 0 then none else some body } := by
    rw [getResp_run _ { code := code, headers := lines.filterMap Header.serialize, content := none } rfl rfl]
    simp only [GRes.response]
    rw [hbody]
  by_cases hN0 : N = 0
  · -- empty body: both sides finish at the head call
    have hbe : body = [] := List.length_eq_zero.mp (by omega)
    subst hbe
    have hhead1' : DataDecoder.new.decode (respHead sl lines) =
        DRes.ok { headEffects lines with
                  resp := some { code := code, headers := lines.filterMap Header.serialize,
                                 content := none },
                  content := ([] : List Nat), state := DecoderState.Finished } := by
      rw [hhead1, if_pos hN0]
    have hfeedS : feedList
        { headEffects lines with
          resp := some { code := code, headers := lines.filterMap Header.serialize,
                         content := none },
          content := ([] : List Nat), state := DecoderState.Finished } pieces =
        DRes.ok { headEffects lines with
                  resp := some { code := code, headers := lines.filterMap Header.serialize,
                                 content := none },
                  content := ([] : List Nat), state := DecoderState.Finished } :=
      feedList_finished pieces _ rfl
    exact ⟨_, _, _, hheadU, hhead1', hfeedS, rfl, rfl, hrespU, rfl⟩
  · rw [if_neg hN0] at hhead1
    obtain ⟨dk, hfeed, _, _, hkresp, _, hkiff, hkfin, _⟩ :=
      feed_content_aux pieces
        { headEffects lines with
          resp := some { code := code, headers := lines.filterMap Header.serialize,
                         content := none },
          content := ([] : List Nat), state := .Content }
        N henc hcl rfl (by exact fun h => hN0 (by simpa using h.symm))
    have hsumall : sumLen pieces = N := by
      rw [sumLen_cat, hcat, hbody]
    have hkf : dk.state = DecoderState.Finished := by
      rw [hkiff]
      exact ⟨pieces.length, le_refl _, by simp [List.take_length, hsumall]⟩
    obtain ⟨j, _, hsum, hcnt⟩ := hkfin hkf
    have hcatj : catList (pieces.take j) = body := by
      have hlenj : (catList (pieces.take j)).length = N := by
        rw [← sumLen_cat]
        simpa using hsum
      have hsplit2 : catList pieces = catList (pieces.take j) ++ catList (pieces.drop j) := by
        rw [← catList_append, List.take_append_drop]
      have hdroplen : (catList (pieces.drop j)).length = 0 := by
        have := congrArg List.length hsplit2
        rw [hcat, hbody, List.length_append, hlenj] at this
        omega
      have hdropnil : catList (pieces.drop j) = [] := List.length_eq_zero.mp hdroplen
      rw [hdropnil, List.append_nil] at hsplit2
      rw [← hsplit2, hcat]
    have hcnt' : dk.content = body := by
      rw [hcnt, hcatj]
      rfl
    refine ⟨_, _, dk, hheadU, hhead1, hfeed, ?_, ?_, hrespU, ?_⟩
    · rfl
    · simp [DataDecoder.finished, hkf]
    · rw [getResp_run dk { code := code, headers := lines.filterMap Header.serialize, content := none } hkf (by exact hkresp), hrespU]
      simp only [GRes.response]
      rw [hcnt', hbody]

theorem hexDigitByte_parse (n : Nat) (h : n ≤ 15) : strToUsize [hexDigitByte n] = some n := by
  interval_cases n <;> decide

theorem hexDigitByte_ne_13 (n : Nat) : hexDigitByte n ≠ 13 := by
  unfold hexDigitByte
  split <;> omega

theorem chunkRecord_length (p : List Nat) : (chunkRecord p).length = p.length + 5 := by
  simp [chunkRecord]

theorem joinRecords_length_ge (ps : List (List Nat)) :
    ps.length ≤ (joinRecords ps).length := by
  induction ps with
  | nil => simp [joinRecords]
  | cons p pr ih =>
    simp only [joinRecords, List.length_append, List.length_cons, chunkRecord_length]
    omega

/-- The chunk loop on a delivery consisting of whole chunk records with
single-hex-digit sizes: every payload is appended in order and the state is
untouched. -/
theorem chunkedGo_records (data : List Nat) (ps : List (List Nat)) :
    ∀ fuel pos (d : DataDecoder),
      (∀ p ∈ ps, 1 ≤ p.length ∧ p.length ≤ 15) →
      data.drop pos = joinRecords ps →
      ps.length < fuel →
      chunkedDecodeGo data fuel pos d =
        DRes.ok { d with content := d.content ++ catList ps } := by
  induction ps with
  | nil =>
    intro fuel pos d _ hdrop _
    have hpos : data.length ≤ pos := by
      have h := congrArg List.length hdrop
      simp only [joinRecords, List.length_drop, List.length_nil] at h
      omega
    cases fuel with
    | zero => show DRes.ok d = _; simp [catList]
    | succ f =>
      rw [chunkedDecodeGo, if_pos hpos]
      simp [catList]
  | cons p ps' ih =>
    intro fuel pos d hsz hdrop hfuel
    obtain ⟨f, rfl⟩ : ∃ f, fuel = f + 1 := ⟨fuel - 1, by omega⟩
    have hp := hsz p (by simp)
    have hdrop' : data.drop pos =
        hexDigitByte p.length :: 13 :: 10 :: (p ++ 13 :: 10 :: joinRecords ps') := by
      simpa [joinRecords, chunkRecord, List.append_assoc] using hdrop
    have hpos : ¬ data.length ≤ pos := by
      have h := congrArg List.length hdrop'
      simp only [List.length_drop, List.length_cons, List.length_append] at h
      omega
    have hm : memchr 13 (data.drop pos) = some 1 := by
      rw [hdrop']
      simp [memchr, hexDigitByte_ne_13 p.length]
    have hhex : strToUsize ((data.drop pos).take 1) = some p.length := by
      rw [hdrop']
      exact hexDigitByte_parse p.length hp.2
    have hbuflen : p.length + 3 ≤ (data.drop pos).length := by
      have h := congrArg List.length hdrop'
      simp only [List.length_drop, List.length_cons, List.length_append] at h
      simp only [List.length_drop]
      omega
    have hslice : ((data.drop pos).drop (1 + 2)).take (p.length + 3 - (1 + 2)) = p := by
      rw [hdrop']
      show (p ++ 13 :: 10 :: joinRecords ps').take (p.length + 3 - 3) = p
      rw [show p.length + 3 - 3 = p.length from by omega]
      exact take_len_append p _
    have hd2 : data.drop (pos + (1 + p.length + 4)) = joinRecords ps' := by
      rw [show pos + (1 + p.length + 4) = pos + (p.length + 5) from by omega]
      rw [drop_add_shift, hdrop]
      rw [show joinRecords (p :: ps') = chunkRecord p ++ joinRecords ps' from rfl]
      rw [← chunkRecord_length p]
      exact List.drop_left _ _
    rw [chunkedDecodeGo, if_neg hpos]
    simp only [hm, hhex]
    rw [if_neg (by omega : ¬ (1 : Nat) = 0)]
    rw [if_neg (by omega : ¬ p.length = 0)]
    rw [if_pos (by constructor <;> omega : 1 + 2 ≤ p.length + 3 ∧
      p.length + 3 ≤ (data.drop pos).length)]
    rw [hslice]
    rw [ih f (pos + (1 + p.length + 4)) { d with content := d.content ++ p }
      (fun x hx => hsz x (by simp [hx])) hd2 (by simp only [List.length_cons] at hfuel; omega)]
    simp [catList, List.append_assoc]

/-- The chunk loop on whole records followed by the zero-length terminator
record (and anything after it): the payloads are appended and the decoder
reaches `Finished`. -/
theorem chunkedGo_term (data : List Nat) (ps : List (List Nat)) :
    ∀ fuel pos (d : DataDecoder) (extra : List Nat),
      (∀ p ∈ ps, 1 ≤ p.length ∧ p.length ≤ 15) →
      data.drop pos = joinRecords ps ++ (chunkTerm ++ extra) →
      ps.length < fuel →
      chunkedDecodeGo data fuel pos d =
        DRes.ok { d with content := d.content ++ catList ps, state := .Finished } := by
  induction ps with
  | nil =>
    intro fuel pos d extra _ hdrop hfuel
    obtain ⟨f, rfl⟩ : ∃ f, fuel = f + 1 := ⟨fuel - 1, by omega⟩
    have hdrop' : data.drop pos = 48 :: 13 :: 10 :: 13 :: 10 :: extra := by
      simpa [joinRecords, chunkTerm] using hdrop
    have hpos : ¬ data.length ≤ pos := by
      have h := congrArg List.length hdrop'
      simp only [List.length_drop, List.length_cons] at h
      omega
    have hm : memchr 13 (data.drop pos) = some 1 := by
      rw [hdrop']
      simp [memchr]
    have hhex : strToUsize ((data.drop pos).take 1) = some 0 := by
      rw [hdrop']
      show strToUsize [48] = some 0
      decide
    rw [chunkedDecodeGo, if_neg hpos]
    simp only [hm, hhex]
    simp [catList]
  | cons p ps' ih =>
    intro fuel pos d extra hsz hdrop hfuel
    obtain ⟨f, rfl⟩ : ∃ f, fuel = f + 1 := ⟨fuel - 1, by omega⟩
    have hp := hsz p (by simp)
    have hdrop' : data.drop pos =
        hexDigitByte p.length :: 13 :: 10 ::
          (p ++ 13 :: 10 :: (joinRecords ps' ++ (chunkTerm ++ extra))) := by
      simpa [joinRecords, chunkRecord, List.append_assoc] using hdrop
    have hpos : ¬ data.length ≤ pos := by
      have h := congrArg List.length hdrop'
      simp only [List.length_drop, List.length_cons, List.length_append] at h
      omega
    have hm : memchr 13 (data.drop pos) = some 1 := by
      rw [hdrop']
      simp [memchr, hexDigitByte_ne_13 p.length]
    have hhex : strToUsize ((data.drop pos).take 1) = some p.length := by
      rw [hdrop']
      exact hexDigitByte_parse p.length hp.2
    have hbuflen : p.length + 3 ≤ (data.drop pos).length := by
      have h := congrArg List.length hdrop'
      simp only [List.length_drop, List.length_cons, List.length_append] at h
      simp only [List.length_drop]
      omega
    have hslice : ((data.drop pos).drop (1 + 2)).take (p.length + 3 - (1 + 2)) = p := by
      rw [hdrop']
      show (p ++ 13 :: 10 :: (joinRecords ps' ++ (chunkTerm ++ extra))).take
        (p.length + 3 - 3) = p
      rw [show p.length + 3 - 3 = p.length from by omega]
      exact take_len_append p _
    have hd2 : data.drop (pos + (1 + p.length + 4)) =
        joinRecords ps' ++ (chunkTerm ++ extra) := by
      rw [show pos + (1 + p.length + 4) = pos + (p.length + 5) from by omega]
      rw [drop_add_shift, hdrop]
      rw [show joinRecords (p :: ps') ++ (chunkTerm ++ extra) =
        chunkRecord p ++ (joinRecords ps' ++ (chunkTerm ++ extra)) from by
          simp [joinRecords, List.append_assoc]]
      rw [← chunkRecord_length p]
      exact List.drop_left _ _
    rw [chunkedDecodeGo, if_neg hpos]
    simp only [hm, hhex]
    rw [if_neg (by omega : ¬ (1 : Nat) = 0)]
    rw [if_neg (by omega : ¬ p.length = 0)]
    rw [if_pos (by constructor <;> omega : 1 + 2 ≤ p.length + 3 ∧
      p.length + 3 ≤ (data.drop pos).length)]
    rw [hslice]
    rw [ih f (pos + (1 + p.length + 4)) { d with content := d.content ++ p } extra
      (fun x hx => hsz x (by simp [hx])) hd2 (by simp only [List.length_cons] at hfuel; omega)]
    simp [catList, List.append_assoc]

/-- On a `ChunkedContent` decoder with chunked encoding, `decode` runs the
chunk loop over the delivered bytes. -/
theorem decode_chunked_call (d : DataDecoder) (data : List Nat)
    (hs : d.state = DecoderState.ChunkedContent)
    (he : d.encoding = TrfrEncodingType.Chunked) :
    d.decode data = chunkedDecodeGo data (data.length + 1) 0 d := by
  simp [DataDecoder.decode, hs, he, chunkedDecode]

/-- Feeding record-aligned chunk deliveries: each call appends exactly its
payloads and the decoder stays in `ChunkedContent`. -/
theorem feed_chunk_calls (calls : List (List (List Nat))) :
    ∀ d : DataDecoder, d.state = DecoderState.ChunkedContent →
      d.encoding = TrfrEncodingType.Chunked →
      (∀ ps ∈ calls, ∀ p ∈ ps, 1 ≤ p.length ∧ p.length ≤ 15) →
      feedList d (calls.map joinRecords) =
        DRes.ok { d with content := d.content ++ catList (calls.map catList) } := by
  induction calls with
  | nil =>
    intro d _ _ _
    show DRes.ok d = _
    simp [catList]
  | cons ps calls' ih =>
    intro d hs he hsz
    simp only [List.map_cons, feedList]
    rw [decode_chunked_call d _ hs he]
    rw [chunkedGo_records (joinRecords ps) ps ((joinRecords ps).length + 1) 0 d
      (hsz ps (by simp)) (by simp)
      (by have := joinRecords_length_ge ps; omega)]
    show feedList { d with content := d.content ++ catList ps } (calls'.map joinRecords) = _
    rw [ih { d with content := d.content ++ catList ps } hs he
      (fun x hx => hsz x (by simp [hx]))]
    simp [catList, List.append_assoc]

theorem chunkedDecodeGo_exhausted (data : List Nat) (fuel pos : Nat) (d : DataDecoder)
    (h : data.length ≤ pos) : chunkedDecodeGo data fuel pos d = DRes.ok d := by
  cases fuel with
  | zero => rfl
  | succ f => rw [chunkedDecodeGo, if_pos h]

/-- `decode` on a fresh decoder fed a well-formed head whose headers record a
chunked transfer encoding: the headers are consumed and the decoder is left in
`ChunkedContent` awaiting chunk records. -/
theorem decode_head_chunked (sl : List Nat) (code : Nat) (lines : List (List Nat))
    (hsl : GoodStatus sl code) (hlines : ∀ l ∈ lines, GoodLine l)
    (henc : (headEffects lines).encoding = TrfrEncodingType.Chunked) :
    DataDecoder.new.decode (respHead sl lines) =
      DRes.ok { headEffects lines with
                resp := some { code := code, headers := lines.filterMap Header.serialize,
                               content := none } } := by
  have hHE : lines.foldl effStep { DataDecoder.new with state := .Content } =
      headEffects lines := rfl
  have hdropP : (sl ++ 13 :: 10 :: (joinCRLF lines ++ 13 :: 10 :: ([] : List Nat))).drop
      (sl.length + 2 + ((joinCRLF lines).length + 2)) = [] := drop_head_all sl _ []
  have hge : (sl ++ 13 :: 10 :: (joinCRLF lines ++ 13 :: 10 :: ([] : List Nat))).length ≤
      sl.length + 2 + ((joinCRLF lines).length + 2) := by
    have h := congrArg List.length hdropP
    simp only [List.length_drop, List.length_nil] at h
    omega
  rw [show respHead sl lines = sl ++ 13 :: 10 :: (joinCRLF lines ++ 13 :: 10 :: []) from by
    simp [respHead]]
  simp only [DataDecoder.decode, new_state_headers]
  rw [parseHeaders_structured sl code lines [] DataDecoder.new hsl hlines, hHE]
  simp only [henc, chunkedDecode]
  exact chunkedDecodeGo_exhausted _ _ _ _ hge

/-- C2 (amended): after headers declaring chunked transfer encoding, for every
sequence of `decode` calls each consisting of whole chunk records whose sizes
fit a single hex digit (1–15 bytes), ending with the zero-length terminator
record, the decoder reaches `Finished` and the accumulated content is exactly
the concatenation of the chunk payloads in order.  (Splits in the middle of a
chunk record, which the claim also covers, are refuted by the
counterexample.) -/
theorem chunked_aligned_concat (sl : List Nat) (code : Nat) (lines : List (List Nat))
    (calls : List (List (List Nat))) (lastPs : List (List Nat))
    (hsl : GoodStatus sl code) (hlines : ∀ l ∈ lines, GoodLine l)
    (henc : (headEffects lines).encoding = TrfrEncodingType.Chunked)
    (hsz : ∀ ps ∈ calls, ∀ p ∈ ps, 1 ≤ p.length ∧ p.length ≤ 15)
    (hszl : ∀ p ∈ lastPs, 1 ≤ p.length ∧ p.length ≤ 15) :
    ∃ d1 dF,
      DataDecoder.new.decode (respHead sl lines) = DRes.ok d1 ∧
      feedList d1 (calls.map joinRecords ++ [joinRecords lastPs ++ chunkTerm]) = DRes.ok dF ∧
      dF.finished = true ∧
      dF.content = catList (calls.map catList) ++ catList lastPs := by
  have hHE : lines.foldl effStep { DataDecoder.new with state := .Content } =
      headEffects lines := rfl
  have hinv := fold_state_inv lines { DataDecoder.new with state := .Content }
    (Or.inl ⟨rfl, rfl⟩)
  have hkeeps := fold_keeps lines { DataDecoder.new with state := .Content }
  rw [hHE] at hinv hkeeps
  have hstate : (headEffects lines).state = DecoderState.ChunkedContent := by
    rcases hinv with ⟨h1, _⟩ | ⟨_, h2⟩
    · rw [henc] at h1; exact absurd h1 (by simp)
    · exact h2
  have hcontent : (headEffects lines).content = [] := hkeeps.1
  obtain ⟨d1, hhead, hd1s, hd1e, hd1c⟩ :
      ∃ d1, DataDecoder.new.decode (respHead sl lines) = DRes.ok d1 ∧
        d1.state = DecoderState.ChunkedContent ∧ d1.encoding = TrfrEncodingType.Chunked ∧
        d1.content = [] :=
    ⟨_, decode_head_chunked sl code lines hsl hlines henc, hstate, henc, hcontent⟩
  have hcallsFeed := feed_chunk_calls calls d1 hd1s hd1e hsz
  have h2s : ({ d1 with content := d1.content ++ catList (calls.map catList) } :
      DataDecoder).state = DecoderState.ChunkedContent := hd1s
  have h2e : ({ d1 with content := d1.content ++ catList (calls.map catList) } :
      DataDecoder).encoding = TrfrEncodingType.Chunked := hd1e
  have hmid := feedList_append_ok (calls.map joinRecords)
    [joinRecords lastPs ++ chunkTerm] d1 _ hcallsFeed
  have hlastDrop : (joinRecords lastPs ++ chunkTerm).drop 0 =
      joinRecords lastPs ++ (chunkTerm ++ []) := by
    simp
  have hlast := chunkedGo_term (joinRecords lastPs ++ chunkTerm) lastPs
    ((joinRecords lastPs ++ chunkTerm).length + 1) 0
    { d1 with content := d1.content ++ catList (calls.map catList) } [] hszl hlastDrop
    (by have := joinRecords_length_ge lastPs
        simp only [List.length_append]
        omega)
  refine ⟨d1, { d1 with content := (d1.content ++ catList (calls.map catList)) ++ catList lastPs, state := .Finished }, hhead, ?_, rfl, ?_⟩
  · rw [hmid]
    simp only [feedList]
    rw [decode_chunked_call _ _ h2s h2e, hlast]
  · show (d1.content ++ catList (calls.map catList)) ++ catList lastPs = _
    rw [hd1c]
    simp

set_option maxHeartbeats 2000000 in
theorem utf8Valid_ascii (l : List Nat) (h : ∀ b ∈ l, b ≤ 127) : utf8Valid l = true := by
  induction l with
  | nil => rfl
  | cons b bs ih =>
    have hb : b ≤ 127 := h b (by simp)
    have hbs : utf8Valid bs = true := ih (fun x hx => h x (by simp [hx]))
    interval_cases b <;> exact hbs

theorem findSub2_cons_ne (a b x y : Nat) (rest : List Nat) (h : ¬ (x = a ∧ y = b)) :
    findSub2 a b (x :: y :: rest) = (findSub2 a b (y :: rest)).map (· + 1) := by
  rw [findSub2, if_neg h]

theorem findSub2_here (a b : Nat) (rest : List Nat) :
    findSub2 a b (a :: b :: rest) = some 0 := by
  rw [findSub2, if_pos ⟨rfl, rfl⟩]

/-- A `Content-Length` line whose value neither parses as an integer nor
contains another `": "` separator is rejected by `Header::serialize`. -/
theorem serialize_bad_cl (val : List Nat) (hsplit : findSub2 58 32 val = none)
    (hparse : usizeParse val = none) :
    Header.serialize (bytes "Content-Length: " ++ val) = none := by
  have hpre : bytes "Content-Length: " =
      [67, 111, 110, 116, 101, 110, 116, 45, 76, 101, 110, 103, 116, 104, 58, 32] := rfl
  have hfind : findSub2 58 32 (bytes "Content-Length: " ++ val) = some 14 := by
    rw [hpre]
    simp only [List.cons_append]
    iterate 14 rw [findSub2_cons_ne 58 32 _ _ _ (by decide)]
    rw [findSub2_here]
    rfl
  have htake : (bytes "Content-Length: " ++ val).take 14 = bytes "Content-Length" := by
    rw [show bytes "Content-Length: " ++ val = bytes "Content-Length" ++ ([58, 32] ++ val)
      from by rw [hpre]; rfl]
    exact take_len_append (bytes "Content-Length") _
  have hdropv : (bytes "Content-Length: " ++ val).drop 16 = val := by
    rw [show (16 : Nat) = (bytes "Content-Length: ").length from rfl]
    exact List.drop_left _ _
  simp only [Header.serialize, hfind]
  simp [htake, hdropv, hsplit, hparse]

/-- `decode` on a fresh decoder fed a well-formed head whose headers record no
content length and no transfer encoding, followed by `rest` body bytes: the
decoder accumulates `rest` and finishes immediately on this very call. -/
theorem decode_head_nolen (sl : List Nat) (code : Nat) (lines : List (List Nat))
    (rest : List Nat) (hsl : GoodStatus sl code) (hlines : ∀ l ∈ lines, GoodLine l)
    (hcl : (headEffects lines).contentLen = none)
    (henc : (headEffects lines).encoding = TrfrEncodingType.None) :
    DataDecoder.new.decode (sl ++ 13 :: 10 :: (joinCRLF lines ++ 13 :: 10 :: rest)) =
      DRes.ok { headEffects lines with
                resp := some { code := code, headers := lines.filterMap Header.serialize,
                               content := none },
                content := rest, state := .Finished } := by
  have hHE : lines.foldl effStep { DataDecoder.new with state := .Content } =
      headEffects lines := rfl
  have hkeeps := fold_keeps lines { DataDecoder.new with state := .Content }
  rw [hHE] at hkeeps
  have hcontent : (headEffects lines).content = [] := hkeeps.1
  have hdropP : (sl ++ 13 :: 10 :: (joinCRLF lines ++ 13 :: 10 :: rest)).drop
      (sl.length + 2 + ((joinCRLF lines).length + 2)) = rest := drop_head_all sl _ rest
  simp only [DataDecoder.decode, new_state_headers]
  rw [parseHeaders_structured sl code lines rest DataDecoder.new hsl hlines, hHE]
  simp only [henc, hcl, hcontent, hdropP, List.nil_append]
  simp
  exact hdropP

/-- C6 (amended): a response whose `Content-Length` value cannot be parsed has
that header line silently skipped — `Header::serialize` fails, the line is
dropped, no content length is recorded, and the decoder does not enter
`Error`; with no other framing it treats the response as unframed, finishing
on the same call, and `get_resp` does hand out a `Response` (without the bad
header). -/
theorem bad_content_length_skipped (sl : List Nat) (code : Nat) (val body : List Nat)
    (hsl : GoodStatus sl code) (h13 : 13 ∉ val) (hascii : ∀ b ∈ val, b ≤ 127)
    (hsplit : findSub2 58 32 val = none) (hparse : usizeParse val = none) :
    ∃ d1, DataDecoder.new.decode
        (respHead sl [bytes "Content-Length: " ++ val] ++ body) = DRes.ok d1 ∧
      d1.state = DecoderState.Finished ∧ d1.contentLen = none ∧
      d1.getResp.response =
        some { code := code, headers := [],
               content := if body.length = 0 then none else some body } := by
  have hser : Header.serialize (bytes "Content-Length: " ++ val) = none :=
    serialize_bad_cl val hsplit hparse
  have hpre : bytes "Content-Length: " =
      [67, 111, 110, 116, 101, 110, 116, 45, 76, 101, 110, 103, 116, 104, 58, 32] := rfl
  have hline : GoodLine (bytes "Content-Length: " ++ val) := by
    refine ⟨?_, ?_, ?_⟩
    · rw [hpre]
      simp
    · intro hmem
      rw [hpre] at hmem
      simp at hmem
      exact h13 hmem
    · refine utf8Valid_ascii _ ?_
      intro b hb
      rcases List.mem_append.mp hb with h1 | h2
      · rw [hpre] at h1
        simp at h1
        rcases h1 with h | h | h | h | h | h | h | h | h | h | h | h | h | h | h | h <;> omega
      · exact hascii b h2
  have hHEc : headEffects [bytes "Content-Length: " ++ val] =
      { DataDecoder.new with state := .Content } := by
    simp [headEffects, effStep, hser]
  have hcl : (headEffects [bytes "Content-Length: " ++ val]).contentLen = none := by
    rw [hHEc]
    rfl
  have henc2 : (headEffects [bytes "Content-Length: " ++ val]).encoding =
      TrfrEncodingType.None := by
    rw [hHEc]
    rfl
  have hfm : [bytes "Content-Length: " ++ val].filterMap Header.serialize = [] := by
    simp [hser]
  rw [show respHead sl [bytes "Content-Length: " ++ val] ++ body =
      sl ++ 13 :: 10 :: (joinCRLF [bytes "Content-Length: " ++ val] ++ 13 :: 10 :: body)
    from by simp [respHead, List.append_assoc]]
  rw [decode_head_nolen sl code [bytes "Content-Length: " ++ val] body hsl
    (by intro l hl; rw [List.mem_singleton] at hl; rw [hl]; exact hline) hcl henc2]
  refine ⟨_, rfl, rfl, hcl, ?_⟩
  rw [getResp_run _ { code := code, headers := [bytes "Content-Length: " ++ val].filterMap Header.serialize, content := none } rfl rfl]
  simp only [GRes.response, hfm]

/-- C8: in the handshake loop, a round that leaves the engine still
handshaking with both the read and the write path suspended and zero bytes
moved makes `Stream::handshake` return `Pending`; a blocked round that moved
at least one byte instead returns `Ready` with the partial (nonzero) byte
counts rather than suspending or failing. -/
theorem handshake_round_progress {σ : Type} (E : Engine σ) (fuel : Nat) (s s' : σ)
    (wl rl : Nat) (wb rb : Bool)
    (hround : hsRound E (fuel + 1) s 0 0 = RoundRes.next wl rl wb rb false s')
    (hhs : E.handshaking s' = true) :
    (wb = true → rb = true → wl = 0 → rl = 0 →
      handshake E (fuel + 1) s = HsRes.pending s') ∧
    ((wb || rb) = true → wl + rl ≠ 0 →
      handshake E (fuel + 1) s = HsRes.ready rl wl s') := by
  constructor
  · intro hwb hrb hw0 hr0
    subst hwb hrb hw0 hr0
    rw [handshake, handshakeLoop]
    simp [hround, hhs]
  · intro horb hne
    rw [handshake, handshakeLoop]
    simp [hround, hhs, horb] <;> omega

theorem handshake_round_progress_witness :
    (hsRound engineBothBlocked 1 0 0 0 = RoundRes.next 0 0 true true false 0 ∧
      handshake engineBothBlocked 1 0 = HsRes.pending 0) ∧
    (hsRound enginePartialWrite 2 0 0 0 = RoundRes.next 5 0 true false false 1 ∧
      handshake enginePartialWrite 2 0 = HsRes.ready 0 5 1) :=
  ⟨⟨rfl, (handshake_round_progress engineBothBlocked 0 0 0 0 0 true true rfl rfl).1
      rfl rfl rfl rfl⟩,
   ⟨rfl, (handshake_round_progress enginePartialWrite 1 0 1 5 0 true false rfl rfl).2
      rfl (by omega)⟩⟩

theorem readyLoop_terminal {σ : Type} (E : Engine σ) :
    ∀ (fuel : Nat) (s : σ) (out : PollOut σ) (r' : RState σ),
      readyLoop E fuel s = (out, r') →
      ((∃ s0, out = PollOut.readyOk s0) ∨ out = PollOut.readyErr) →
      r' = RState.done := by
  intro fuel
  induction fuel with
  | zero =>
    intro s out r' hrun hterm
    rw [readyLoop] at hrun
    cases hrun
    rcases hterm with ⟨s0, h⟩ | h <;> exact absurd h (by simp)
  | succ f ih =>
    intro s out r' hrun hterm
    rw [readyLoop] at hrun
    by_cases hh : E.handshaking s = false
    · rw [if_pos hh] at hrun
      cases hrun
      rfl
    · rw [if_neg hh] at hrun
      cases hhs : handshake E (f + 1) s with
      | ready a b s2 =>
        rw [hhs] at hrun
        exact ih s2 out r' hrun hterm
      | pending s2 =>
        rw [hhs] at hrun
        cases hrun
        rcases hterm with ⟨s0, h⟩ | h <;> exact absurd h (by simp)
      | failed =>
        rw [hhs] at hrun
        cases hrun
        rfl
      | fuelOut =>
        rw [hhs] at hrun
        cases hrun
        rcases hterm with ⟨s0, h⟩ | h <;> exact absurd h (by simp)

/-- C9: the `Ready` future yields a terminal result (`Ok` stream or error)
from exactly one poll sequence — doing so leaves the future in the `Done`
slot, and any later poll hits the `polled after completion` panic rather than
silently resuming or producing another value. -/
theorem ready_poll_after_terminal {σ : Type} (E : Engine σ) (fuel fuel2 : Nat)
    (r r' : RState σ) (out : PollOut σ) (hpoll : readyPoll E fuel r = (out, r'))
    (hterm : (∃ s0, out = PollOut.readyOk s0) ∨ out = PollOut.readyErr) :
    r' = RState.done ∧ readyPoll E fuel2 r' = (PollOut.panicked, RState.done) := by
  cases r with
  | done =>
    rw [readyPoll] at hpoll
    cases hpoll
    rcases hterm with ⟨s0, h⟩ | h <;> exact absurd h (by simp)
  | handshaking s =>
    rw [readyPoll] at hpoll
    have hdone := readyLoop_terminal E fuel s out r' hpoll hterm
    subst hdone
    exact ⟨rfl, rfl⟩

theorem ready_poll_after_terminal_witness :
    readyPoll engineDoneHs 1 (RState.handshaking ()) = (PollOut.readyOk (), RState.done) ∧
      readyPoll engineDoneHs 1 RState.done = (PollOut.panicked, RState.done) :=
  ⟨rfl, (ready_poll_after_terminal engineDoneHs 1 1 (RState.handshaking ()) RState.done
      (PollOut.readyOk ()) rfl (Or.inl ⟨(), rfl⟩)).2⟩

theorem content_length_finished_iff_witness :
    GoodStatus (bytes "HTTP/1.1 201 Created") 201 ∧
    (∀ l ∈ [bytes "Content-Length: 5"], GoodLine l) ∧
    (headEffects [bytes "Content-Length: 5"]).contentLen = some 5 ∧
    (headEffects [bytes "Content-Length: 5"]).encoding = TrfrEncodingType.None ∧
    (∃ d1 dk,
      DataDecoder.new.decode
        (respHead (bytes "HTTP/1.1 201 Created") [bytes "Content-Length: 5"]) = DRes.ok d1 ∧
      feedList d1 ([bytes "AB", bytes "CDE"].take 2) = DRes.ok dk ∧
      (dk.finished = true ↔ ∃ j, j ≤ 2 ∧ sumLen ([bytes "AB", bytes "CDE"].take j) = 5)) :=
  ⟨by decide, by decide, by decide, by decide,
   content_length_finished_iff (bytes "HTTP/1.1 201 Created") 201 [bytes "Content-Length: 5"]
     5 [bytes "AB", bytes "CDE"] 2 (by decide) (by decide) (by decide) (by decide)⟩

theorem fragmentation_invariance_content_length_witness :
    GoodStatus (bytes "HTTP/1.1 201 Created") 201 ∧
    (∀ l ∈ [bytes "Content-Length: 5"], GoodLine l) ∧
    (headEffects [bytes "Content-Length: 5"]).contentLen = some 5 ∧
    (headEffects [bytes "Content-Length: 5"]).encoding = TrfrEncodingType.None ∧
    (bytes "ABCDE").length = 5 ∧
    catList [bytes "AB", bytes "CDE"] = bytes "ABCDE" ∧
    (∃ dU d1 dS,
      DataDecoder.new.decode
        (respHead (bytes "HTTP/1.1 201 Created") [bytes "Content-Length: 5"] ++
          bytes "ABCDE") = DRes.ok dU ∧
      DataDecoder.new.decode
        (respHead (bytes "HTTP/1.1 201 Created") [bytes "Content-Length: 5"]) = DRes.ok d1 ∧
      feedList d1 [bytes "AB", bytes "CDE"] = DRes.ok dS ∧
      dU.finished = true ∧ dS.finished = true ∧
      dU.getResp.response =
        some { code := 201,
               headers := [bytes "Content-Length: 5"].filterMap Header.serialize,
               content := if 5 = 0 then none else some (bytes "ABCDE") } ∧
      dS.getResp.response = dU.getResp.response) :=
  ⟨by decide, by decide, by decide, by decide, by decide, by decide,
   fragmentation_invariance_content_length (bytes "HTTP/1.1 201 Created") 201
     [bytes "Content-Length: 5"] 5 (bytes "ABCDE") [bytes "AB", bytes "CDE"]
     (by decide) (by decide) (by decide) (by decide) (by decide) (by decide)⟩

theorem chunked_aligned_concat_witness :
    GoodStatus (bytes "HTTP/1.1 201 Created") 201 ∧
    (∀ l ∈ [bytes "Transfer-Encoding: chunked"], GoodLine l) ∧
    (headEffects [bytes "Transfer-Encoding: chunked"]).encoding = TrfrEncodingType.Chunked ∧
    (∀ ps ∈ [[bytes "test", bytes "test1"]], ∀ p ∈ ps, 1 ≤ p.length ∧ p.length ≤ 15) ∧
    (∀ p ∈ [bytes "test2"], 1 ≤ p.length ∧ p.length ≤ 15) ∧
    (∃ d1 dF,
      DataDecoder.new.decode
        (respHead (bytes "HTTP/1.1 201 Created") [bytes "Transfer-Encoding: chunked"]) =
          DRes.ok d1 ∧
      feedList d1 ([[bytes "test", bytes "test1"]].map joinRecords ++
        [joinRecords [bytes "test2"] ++ chunkTerm]) = DRes.ok dF ∧
      dF.finished = true ∧
      dF.content = catList ([[bytes "test", bytes "test1"]].map catList) ++
        catList [bytes "test2"]) :=
  ⟨by decide, by decide, by decide, by decide, by decide,
   chunked_aligned_concat (bytes "HTTP/1.1 201 Created") 201
     [bytes "Transfer-Encoding: chunked"] [[bytes "test", bytes "test1"]] [bytes "test2"]
     (by decide) (by decide) (by decide) (by decide) (by decide)⟩

theorem bad_content_length_skipped_witness :
    GoodStatus (bytes "HTTP/1.1 200 OK") 200 ∧
    13 ∉ bytes "abc" ∧ (∀ b ∈ bytes "abc", b ≤ 127) ∧
    findSub2 58 32 (bytes "abc") = none ∧ usizeParse (bytes "abc") = none ∧
    (∃ d1, DataDecoder.new.decode
        (respHead (bytes "HTTP/1.1 200 OK")
          [bytes "Content-Length: " ++ bytes "abc"] ++ bytes "hi") = DRes.ok d1 ∧
      d1.state = DecoderState.Finished ∧ d1.contentLen = none ∧
      d1.getResp.response =
        some { code := 200, headers := [],
               content := if (bytes "hi").length = 0 then none else some (bytes "hi") }) :=
  ⟨by decide, by decide, by decide, by decide, by decide,
   bad_content_length_skipped (bytes "HTTP/1.1 200 OK") 200 (bytes "abc") (bytes "hi")
     (by decide) (by decide) (by decide) (by decide) (by decide)⟩

/-- C6 counterexample: the response with the unparseable header line
`"Content-Length: abc"` does not drive the decoder into the `Error` state —
the line is skipped, the decoder finishes on the same call, and `get_resp`
hands out a `Response` (status 200, body `"hi"`, the bad header dropped). -/
theorem bad_content_length_counterexample :
    ((DataDecoder.new.decode
          (bytes "HTTP/1.1 200 OK\r\nContent-Length: abc\r\n\r\nhi")).okDecoder.map
        fun d => (d.state, d.getResp.response)) =
      some (DecoderState.Finished,
        some { code := 200, headers := [], content := some (bytes "hi") }) := by
  decide

end Tunnel
